import Mathlib

/-!
# Verification of the SWIM membership protocol core (`src/lib.rs`)

Shallow embedding of the gossip/failure-detector state machine implemented in
`Gossip` (src/lib.rs).  Node addresses (`SocketAddr`, structural equality) are
modelled as naturals; the two `u64` counters (`epoch`, `sequence_number`) are
naturals reduced modulo `2^64` at each increment, which is the release-mode
wrapping behaviour of `+= 1` on `u64`.  The `message` and
`unique_circular_buffer` modules of the repository are not among the provided
source files; they are modelled from the specification (§4.1 Wire Message
Codec, §4.2 Unique Bounded Ring Buffer) and marked as such.

Fallible code (Rust `unwrap`, out-of-bounds `Vec` indexing, `unreachable!()`)
is embedded with `Option`: `none` is a panic of the protocol thread.
-/

/-- A transport endpoint (`SocketAddr`); equality is structural. -/
abbrev Addr := Nat

/-- `2^64`, the modulus of the `u64` counters. -/
def u64Mod : Nat := 2 ^ 64

/-- Remove every occurrence of `v` from a list of addresses. -/
def removeAddr : List Addr → Addr → List Addr
  | [], _ => []
  | x :: rest, v => if x = v then removeAddr rest v else x :: removeAddr rest v

/-- Modelled from the spec (§4.2): the repository's `unique_circular_buffer`
module is not among the provided sources.  A fixed-capacity ring of addresses:
`push` deduplicates (removing the older instance) and overwrites the oldest
element when full; `remove` purges every occurrence and reports how many;
iteration yields the current contents oldest-first. -/
structure UniqueCircularBuffer where
  capacity : Nat
  data : List Addr
deriving DecidableEq

/-- `UniqueCircularBuffer::push`: deduplicate, evict the oldest when full,
append at the back.  Eviction is silent; `push` never fails. -/
def UniqueCircularBuffer.push (b : UniqueCircularBuffer) (v : Addr) : UniqueCircularBuffer :=
  let pruned := removeAddr b.data v
  let room := if b.capacity ≤ pruned.length then pruned.drop 1 else pruned
  ⟨b.capacity, room ++ [v]⟩

/-- `UniqueCircularBuffer::remove`: purge every occurrence of `v`, returning
how many were removed together with the new buffer. -/
def UniqueCircularBuffer.remove (b : UniqueCircularBuffer) (v : Addr) :
    Nat × UniqueCircularBuffer :=
  (b.data.count v, ⟨b.capacity, removeAddr b.data v⟩)

/-- `message::MessageType` (src/lib.rs uses the three tags). -/
inductive MessageType
  | Ping
  | PingAck
  | PingIndirect
deriving DecidableEq

/-- Modelled from the spec (§4.1): the repository's `message` module is not
among the provided sources.  A decoded wire message: type tag, 64-bit sequence
number and epoch, and the two piggybacked address lists exposed by
`get_alive_members` / `get_dead_members`. -/
structure Message where
  mtype : MessageType
  sequence_number : Nat
  epoch : Nat
  alive : List Addr
  dead : List Addr
deriving DecidableEq

/-- `Message::create(type, sequence_number, epoch)`: empty piggyback lists. -/
def Message.create (t : MessageType) (seq epoch : Nat) : Message :=
  ⟨t, seq, epoch, [], []⟩

/-- `Message::with_members(alive, dead)`: set the piggyback lists. -/
def Message.with_members (m : Message) (alive dead : List Addr) : Message :=
  { m with alive := alive, dead := dead }

/-- `Header { target, epoch, sequence_number }` (src/lib.rs). -/
structure Header where
  target : Addr
  epoch : Nat
  sequence_number : Nat
deriving DecidableEq

/-- `enum Request` (src/lib.rs): a pending outbound operation. -/
inductive Request
  | Ping (h : Header)
  | PingIndirect (h : Header)
  | PingProxy (h : Header) (reply_to : Addr)
  | Ack (h : Header)
  | AckIndirect (h : Header) (member : Addr)
deriving DecidableEq

/-- `struct Ack` (src/lib.rs): a pending acknowledgment.  The wall-clock
`request_time` is dropped; ack timeouts are a nondeterministic event of the
step relation instead. -/
structure Ack where
  request : Request
deriving DecidableEq

/-- `OutgoingLetter` (src/lib.rs): a datagram about to be sent. -/
structure OutgoingLetter where
  target : Addr
  message : Message
deriving DecidableEq

/-- `IncomingLetter` (src/lib.rs): a received datagram with its sender. -/
structure IncomingLetter where
  sender : Addr
  message : Message
deriving DecidableEq

/-- `ProtocolConfig` (src/lib.rs), with the timing fields kept only as data:
real time is abstracted into nondeterministic timeout/epoch events. -/
structure ProtocolConfig where
  protocol_period : Nat
  ack_timeout : Nat
  num_indirect : Nat
deriving DecidableEq

/-- `ProtocolConfig::default()`. -/
def ProtocolConfig.default : ProtocolConfig :=
  ⟨5, 1, 3⟩

/-- `struct Gossip` (src/lib.rs), without the I/O plumbing (`server`,
`recv_buffer`, `receiver`): the protocol state proper.  `members_presence`
(a `HashSet`) is modelled as the list of its elements. -/
structure Gossip where
  config : ProtocolConfig
  members : List Addr
  dead_members : UniqueCircularBuffer
  members_presence : List Addr
  next_member_index : Nat
  epoch : Nat
  sequence_number : Nat
  myself : Addr
  requests : List Request
  acks : List Ack
deriving DecidableEq

/-- `Gossip::new(bind_address, config)`: the pre-join state. -/
def Gossip.new (bind_address : Addr) (config : ProtocolConfig) : Gossip :=
  { config := config
    members := []
    dead_members := ⟨5, []⟩
    members_presence := []
    next_member_index := 0
    epoch := 0
    sequence_number := 0
    myself := bind_address
    requests := []
    acks := [] }

/-- `Vec::position(|e| e == member)` over the alive list. -/
def position : List Addr → Addr → Option Nat
  | [], _ => none
  | x :: rest, m => if x = m then some 0 else (position rest m).map (· + 1)

/-- `Gossip::remove_member`: if present in the presence set, erase it there,
delete it from the alive sequence at its position, and pull the round-robin
cursor back when the deletion happened at or before it.  `none` is the
`unwrap` panic when the presence set and the alive sequence disagree. -/
def Gossip.remove_member (s : Gossip) (member : Addr) : Option Gossip :=
  if member ∈ s.members_presence then
    match position s.members member with
    | some idx =>
        some { s with
          members_presence := removeAddr s.members_presence member
          members := s.members.eraseIdx idx
          next_member_index :=
            if idx ≤ s.next_member_index ∧ 0 < s.next_member_index then
              s.next_member_index - 1
            else s.next_member_index }
    | none => none
  else some s

/-- `Gossip::remove_members`: remove each address of the iterator. -/
def Gossip.remove_members (s : Gossip) (members : List Addr) : Option Gossip :=
  members.foldlM Gossip.remove_member s

/-- The body of the `for member in alive` loop of `Gossip::update_members`:
skip `myself`; insert into the presence set and append to the alive sequence
on first sight; purge the address from the dead ring. -/
def Gossip.update_alive_one (s : Gossip) (member : Addr) : Gossip :=
  if member = s.myself then s
  else
    let s :=
      if member ∈ s.members_presence then s
      else { s with
        members_presence := member :: s.members_presence
        members := s.members ++ [member] }
    { s with dead_members := (s.dead_members.remove member).2 }

/-- `Gossip::update_members(alive, dead)`: dead first, then alive, so an alive
assertion in the same call overrides a dead assertion. -/
def Gossip.update_members (s : Gossip) (alive dead : List Addr) : Option Gossip := do
  let s ← s.remove_members dead
  some (alive.foldl Gossip.update_alive_one s)

/-- One iteration of `Gossip::kill_members`: remove from the registry, then
push onto the dead ring. -/
def Gossip.kill_one (s : Gossip) (member : Addr) : Option Gossip := do
  let s ← s.remove_member member
  some { s with dead_members := s.dead_members.push member }

/-- `Gossip::kill_members`: for each address, `remove_member` then push onto
the dead ring. -/
def Gossip.kill_members (s : Gossip) (members : List Addr) : Option Gossip :=
  members.foldlM Gossip.kill_one s

/-- `Gossip::get_next_member`: `None` when the alive list is empty, otherwise
return `members[next_member_index]` and advance the cursor modulo the length.
The outer `none` is the panic of an out-of-range index. -/
def Gossip.get_next_member (s : Gossip) : Option (Option Addr × Gossip) :=
  if s.members.isEmpty then some (none, s)
  else
    match s.members.get? s.next_member_index with
    | some target =>
        some (some target,
          { s with next_member_index := (s.next_member_index + 1) % s.members.length })
    | none => none

/-- `Gossip::get_next_sequence_number`: return the current value, then
increment (wrapping as `u64`). -/
def Gossip.get_next_sequence_number (s : Gossip) : Nat × Gossip :=
  (s.sequence_number, { s with sequence_number := (s.sequence_number + 1) % u64Mod })

/-- `Gossip::advance_epoch`: front-load a `Ping` to the next round-robin peer
when one exists, then increment the epoch (wrapping as `u64`). -/
def Gossip.advance_epoch (s : Gossip) : Option Gossip := do
  let (m, s) ← s.get_next_member
  let s :=
    match m with
    | some member =>
        let (seq, s) := s.get_next_sequence_number
        { s with requests := Request.Ping ⟨member, s.epoch, seq⟩ :: s.requests }
    | none => s
  some { s with epoch := (s.epoch + 1) % u64Mod }

/-- `Gossip::handle_timeout_ack`: a timed-out `Ping` escalates to a
`PingIndirect` appended at the back of the request queue; a timed-out
`PingIndirect` or `PingProxy` kills the target.  `none` is the
`unreachable!()` abort on the impossible variants. -/
def Gossip.handle_timeout_ack (s : Gossip) (ack : Ack) : Option Gossip :=
  match ack.request with
  | .Ping h => some { s with requests := s.requests ++ [Request.PingIndirect h] }
  | .PingIndirect h => s.kill_members [h.target]
  | .PingProxy h _ => s.kill_members [h.target]
  | _ => none

/-- `Gossip::handle_ping`: answer with an `Ack` request addressed at the
sender, echoing the inbound epoch and sequence number. -/
def Gossip.handle_ping (s : Gossip) (letter : IncomingLetter) : Option Gossip :=
  some { s with
    requests := s.requests ++
      [Request.Ack ⟨letter.sender, letter.message.epoch, letter.message.sequence_number⟩] }

/-- `Gossip::handle_indirect_ping`: enqueue a `PingProxy` towards position 0
of the inbound alive piggyback, replying to the sender.  `none` is the panic
of `get_alive_members()[0]` on an empty list. -/
def Gossip.handle_indirect_ping (s : Gossip) (letter : IncomingLetter) : Option Gossip :=
  match letter.message.alive with
  | [] => none
  | t :: _ =>
      some { s with
        requests := s.requests ++
          [Request.PingProxy ⟨t, letter.message.epoch, letter.message.sequence_number⟩
            letter.sender] }

/-- The drain-and-refill walk of `Gossip::handle_ack` over the pending acks,
in order: returns the retained entries and the `AckIndirect` requests pushed
along the way.  `none` is either the panic of `get_alive_members()[0]` on an
empty inbound alive list at a pending `PingIndirect`, or the `unreachable!()`
abort on an `Ack`/`AckIndirect` pending variant. -/
def ackWalk (letter : IncomingLetter) : List Ack → Option (List Ack × List Request)
  | [] => some ([], [])
  | a :: rest =>
    match a.request with
    | .PingIndirect h =>
        match letter.message.alive with
        | [] => none
        | t :: _ =>
            if t = h.target ∧ letter.message.sequence_number = h.sequence_number then
              ackWalk letter rest
            else do
              let (ra, rq) ← ackWalk letter rest
              some (a :: ra, rq)
    | .PingProxy h reply_to =>
        if letter.sender = h.target ∧
            letter.message.sequence_number = h.sequence_number then do
          let (ra, rq) ← ackWalk letter rest
          some (ra,
            Request.AckIndirect
              ⟨reply_to, letter.message.epoch, letter.message.sequence_number⟩
              letter.sender :: rq)
        else do
          let (ra, rq) ← ackWalk letter rest
          some (a :: ra, rq)
    | .Ping h =>
        if letter.sender = h.target ∧
            letter.message.sequence_number = h.sequence_number then
          ackWalk letter rest
        else do
          let (ra, rq) ← ackWalk letter rest
          some (a :: ra, rq)
    | _ => none

/-- `Gossip::handle_ack`: run the walk, keep the retained pending acks, append
the produced `AckIndirect` requests at the back of the queue. -/
def Gossip.handle_ack (s : Gossip) (letter : IncomingLetter) : Option Gossip := do
  let (ra, rq) ← ackWalk letter s.acks
  some { s with acks := ra, requests := s.requests ++ rq }

/-- `Gossip::update_members_from_letter`: feed the piggyback into the
registry; for `PingIndirect` the relay target at position 0 is excluded; the
sender is always appended as alive. -/
def Gossip.update_members_from_letter (s : Gossip) (letter : IncomingLetter) : Option Gossip :=
  match letter.message.mtype with
  | .PingIndirect =>
      s.update_members (letter.message.alive.drop 1 ++ [letter.sender]) letter.message.dead
  | _ =>
      s.update_members (letter.message.alive ++ [letter.sender]) letter.message.dead

/-- The readable arm of `Gossip::handle_protocol_event`: membership update
from the letter, then dispatch on the message type. -/
def Gossip.handle_letter (s : Gossip) (letter : IncomingLetter) : Option Gossip := do
  let s ← s.update_members_from_letter letter
  match letter.message.mtype with
  | .Ping => s.handle_ping letter
  | .PingAck => s.handle_ack letter
  | .PingIndirect => s.handle_indirect_ping letter

/-- The writable arm of `Gossip::handle_protocol_event`: pop the head request
and render it to datagrams; `Ping`, `PingIndirect` and `PingProxy` record a
pending ack.  Returns the new state and the emitted letters. -/
def Gossip.handle_writable (s : Gossip) : Gossip × List OutgoingLetter :=
  match s.requests with
  | [] => (s, [])
  | request :: rest =>
    let s := { s with requests := rest }
    match request with
    | .Ping h =>
        let message :=
          (Message.create MessageType.Ping h.sequence_number h.epoch).with_members
            (removeAddr s.members h.target) s.dead_members.data
        ({ s with acks := s.acks ++ [⟨request⟩] }, [⟨h.target, message⟩])
    | .PingIndirect h =>
        let message :=
          (Message.create MessageType.PingIndirect h.sequence_number h.epoch).with_members
            (h.target :: removeAddr s.members h.target) s.dead_members.data
        ({ s with acks := s.acks ++ [⟨request⟩] },
          (s.members.take s.config.num_indirect).map (fun member => ⟨member, message⟩))
    | .PingProxy h _ =>
        let message :=
          (Message.create MessageType.Ping h.sequence_number h.epoch).with_members
            (removeAddr s.members h.target) s.dead_members.data
        ({ s with acks := s.acks ++ [⟨request⟩] }, [⟨h.target, message⟩])
    | .Ack h =>
        let message :=
          (Message.create MessageType.PingAck h.sequence_number h.epoch).with_members
            s.members s.dead_members.data
        (s, [⟨h.target, message⟩])
    | .AckIndirect h member =>
        let message :=
          (Message.create MessageType.PingAck h.sequence_number h.epoch).with_members
            (member :: s.members) s.dead_members.data
        (s, [⟨h.target, message⟩])

/-- The per-iteration ack-timeout scan of `Gossip::join`: the pending acks are
drained and each is either escalated (`handle_timeout_ack`) or pushed back,
in order.  Which entries have timed out is a nondeterministic choice `t`. -/
def processTimeouts : Gossip → List Ack → List Bool → Option Gossip
  | s, [], _ => some s
  | s, a :: rest, t =>
    if t.headD false then do
      let s ← s.handle_timeout_ack a
      processTimeouts s rest t.tail
    else
      processTimeouts { s with acks := s.acks ++ [a] } rest t.tail

/-- One observable event of the protocol loop: an inbound datagram, a writable
socket, an ack-timeout scan (with the nondeterministic timed-out pattern), or
a protocol-period (epoch) transition. -/
inductive Event
  | recv (letter : IncomingLetter)
  | writableReady
  | timeouts (t : List Bool)
  | epochTick

/-- One step of the protocol loop; `none` is a panic of the thread. -/
def Gossip.step (s : Gossip) : Event → Option Gossip
  | .recv letter => s.handle_letter letter
  | .writableReady => some s.handle_writable.1
  | .timeouts t => processTimeouts { s with acks := [] } s.acks t
  | .epochTick => s.advance_epoch

/-- Run a sequence of events from a state. -/
def Gossip.runEvents (s : Gossip) (events : List Event) : Option Gossip :=
  events.foldlM Gossip.step s

/-- `Gossip::join(member)` up to entering the main loop: seed the registry
with the given member, then front-load the initial `Ping` to the next
round-robin peer (the seed).  `none` covers the `unwrap` on an empty registry,
which happens exactly when the seed equals `myself`. -/
def Gossip.postJoin (bind_address member : Addr) (config : ProtocolConfig) : Option Gossip := do
  let s ← (Gossip.new bind_address config).update_members [member] []
  let (m, s) ← s.get_next_member
  match m with
  | none => none
  | some target =>
      let (seq, s) := s.get_next_sequence_number
      some { s with requests := Request.Ping ⟨target, s.epoch, seq⟩ :: s.requests }

/-- A state of the protocol thread reachable from some post-join state by a
sequence of events. -/
def Reachable (s : Gossip) : Prop :=
  ∃ (a b : Addr) (c : ProtocolConfig) (g : Gossip) (events : List Event),
    Gossip.postJoin a b c = some g ∧ g.runEvents events = some s

/-! ## Basic lemmas about the list helpers -/

theorem mem_removeAddr {l : List Addr} {v y : Addr} :
    y ∈ removeAddr l v ↔ y ∈ l ∧ y ≠ v := by
  induction l with
  | nil => simp [removeAddr]
  | cons x rest ih =>
      simp only [removeAddr]
      split_ifs with hx
      · subst hx
        rw [ih]
        simp only [List.mem_cons]
        constructor
        · rintro ⟨hy, hv⟩
          exact ⟨Or.inr hy, hv⟩
        · rintro ⟨rfl | hy, hv⟩
          · exact absurd rfl hv
          · exact ⟨hy, hv⟩
      · simp only [List.mem_cons, ih]
        constructor
        · rintro (rfl | ⟨hy, hv⟩)
          · exact ⟨Or.inl rfl, hx⟩
          · exact ⟨Or.inr hy, hv⟩
        · rintro ⟨rfl | hy, hv⟩
          · exact Or.inl rfl
          · exact Or.inr ⟨hy, hv⟩

theorem not_mem_removeAddr_self {l : List Addr} {v : Addr} : v ∉ removeAddr l v := by
  intro h
  exact (mem_removeAddr.mp h).2 rfl

theorem position_lt_length {l : List Addr} {m : Addr} {i : Nat}
    (h : position l m = some i) : i < l.length := by
  induction l generalizing i with
  | nil => simp [position] at h
  | cons x rest ih =>
      by_cases hx : x = m
      · rw [position, if_pos hx] at h
        rw [Option.some_inj] at h
        subst h
        simp
      · simp only [position, if_neg hx, Option.map_eq_some'] at h
        obtain ⟨j, hj, rfl⟩ := h
        have := ih hj
        simp
        omega

theorem position_isSome_of_mem {l : List Addr} {m : Addr} (h : m ∈ l) :
    (position l m).isSome := by
  induction l with
  | nil => simp at h
  | cons x rest ih =>
      by_cases hx : x = m
      · simp [position, hx]
      · simp only [List.mem_cons] at h
        rcases h with rfl | h
        · exact absurd rfl hx
        · simp only [position, if_neg hx, Option.isSome_map']
          exact ih h

theorem mem_eraseIdx_position {l : List Addr} {m : Addr} {i : Nat} {y : Addr}
    (hn : l.Nodup) (hp : position l m = some i) :
    y ∈ l.eraseIdx i ↔ y ∈ l ∧ y ≠ m := by
  induction l generalizing i with
  | nil => simp [position] at hp
  | cons x rest ih =>
      have hn' : rest.Nodup := (List.nodup_cons.mp hn).2
      have hxr : x ∉ rest := (List.nodup_cons.mp hn).1
      by_cases hx : x = m
      · subst hx
        simp [position] at hp
        subst hp
        simp only [List.eraseIdx_cons_zero, List.mem_cons]
        constructor
        · intro hy
          refine ⟨Or.inr hy, ?_⟩
          rintro rfl
          exact hxr hy
        · rintro ⟨rfl | hy, hne⟩
          · exact absurd rfl hne
          · exact hy
      · simp only [position, if_neg hx, Option.map_eq_some'] at hp
        obtain ⟨j, hj, rfl⟩ := hp
        simp only [List.eraseIdx_cons_succ, List.mem_cons, ih hn' hj]
        constructor
        · rintro (rfl | ⟨hy, hne⟩)
          · exact ⟨Or.inl rfl, hx⟩
          · exact ⟨Or.inr hy, hne⟩
        · rintro ⟨rfl | hy, hne⟩
          · exact Or.inl rfl
          · exact Or.inr ⟨hy, hne⟩

theorem mem_push_self (b : UniqueCircularBuffer) (v : Addr) :
    v ∈ (b.push v).data := by
  simp [UniqueCircularBuffer.push]

theorem mem_push_of_mem {b : UniqueCircularBuffer} {v y : Addr}
    (h : y ∈ (b.push v).data) : y ∈ b.data ∨ y = v := by
  simp only [UniqueCircularBuffer.push, List.mem_append, List.mem_singleton] at h
  rcases h with h | h
  · split at h
    · exact Or.inl (mem_removeAddr.mp (List.mem_of_mem_drop h)).1
    · exact Or.inl (mem_removeAddr.mp h).1
  · exact Or.inr h

/-! ## State invariants -/

/-- The alive sequence has no duplicates and agrees with the presence set —
the representation invariant of the Member Registry. -/
def Wf (s : Gossip) : Prop :=
  s.members.Nodup ∧ ∀ x : Addr, x ∈ s.members ↔ x ∈ s.members_presence

/-- The round-robin cursor invariant: inside the alive list, or `0` when the
alive list is empty. -/
def CursorInv (s : Gossip) : Prop :=
  (s.members = [] ∧ s.next_member_index = 0) ∨ s.next_member_index < s.members.length

/-! ## Registry operation lemmas -/

theorem remove_member_total {s : Gossip} (hw : Wf s) (m : Addr) :
    ∃ s', s.remove_member m = some s' := by
  unfold Gossip.remove_member
  by_cases hm : m ∈ s.members_presence
  · rw [if_pos hm]
    have hmem : m ∈ s.members := (hw.2 m).mpr hm
    have hsome := position_isSome_of_mem hmem
    rcases hpos : position s.members m with _ | i
    · rw [hpos] at hsome
      simp at hsome
    · exact ⟨_, rfl⟩
  · rw [if_neg hm]
    exact ⟨_, rfl⟩

theorem remove_member_spec {s s' : Gossip} {m : Addr} (hw : Wf s)
    (h : s.remove_member m = some s') :
    Wf s' ∧
    (∀ y, y ∈ s'.members ↔ y ∈ s.members ∧ y ≠ m) ∧
    (∀ y, y ∈ s'.members_presence ↔ y ∈ s.members_presence ∧ y ≠ m) ∧
    s'.dead_members = s.dead_members ∧ s'.acks = s.acks ∧
    s'.requests = s.requests ∧ s'.myself = s.myself ∧ s'.config = s.config ∧
    s'.epoch = s.epoch ∧ s'.sequence_number = s.sequence_number := by
  unfold Gossip.remove_member at h
  by_cases hm : m ∈ s.members_presence
  · rw [if_pos hm] at h
    rcases hpos : position s.members m with _ | i
    · rw [hpos] at h
      simp at h
    · rw [hpos] at h
      rw [Option.some_inj] at h
      subst h
      have hmems : ∀ y, y ∈ s.members.eraseIdx i ↔ y ∈ s.members ∧ y ≠ m :=
        fun y => mem_eraseIdx_position hw.1 hpos
      have hpres : ∀ y : Addr, y ∈ removeAddr s.members_presence m ↔
          y ∈ s.members_presence ∧ y ≠ m := fun y => mem_removeAddr
      refine ⟨⟨(List.eraseIdx_sublist s.members i).nodup hw.1, ?_⟩,
        hmems, hpres, rfl, rfl, rfl, rfl, rfl, rfl, rfl⟩
      intro x
      rw [hmems x, hpres x, hw.2 x]
  · rw [if_neg hm] at h
    rw [Option.some_inj] at h
    subst h
    have hnm : m ∉ s.members := fun hc => hm ((hw.2 m).mp hc)
    refine ⟨hw, ?_, ?_, rfl, rfl, rfl, rfl, rfl, rfl, rfl⟩
    · intro y
      constructor
      · intro hy
        refine ⟨hy, ?_⟩
        rintro rfl
        exact hnm hy
      · exact fun hy => hy.1
    · intro y
      constructor
      · intro hy
        refine ⟨hy, ?_⟩
        rintro rfl
        exact hm hy
      · exact fun hy => hy.1

theorem remove_members_spec {D : List Addr} :
    ∀ {s : Gossip}, Wf s →
    ∃ s', s.remove_members D = some s' ∧ Wf s' ∧
      (∀ y, y ∈ s'.members → y ∈ s.members) ∧
      s'.dead_members = s.dead_members ∧ s'.acks = s.acks ∧
      s'.requests = s.requests ∧ s'.myself = s.myself ∧ s'.config = s.config ∧
      s'.epoch = s.epoch ∧ s'.sequence_number = s.sequence_number := by
  induction D with
  | nil =>
      intro s hw
      exact ⟨s, rfl, hw, fun y hy => hy, rfl, rfl, rfl, rfl, rfl, rfl, rfl⟩
  | cons d rest ih =>
      intro s hw
      obtain ⟨s1, hs1⟩ := remove_member_total hw d
      obtain ⟨hw1, hmem1, _, hdead1, hacks1, hreq1, hmy1, hcfg1, hep1, hsq1⟩ :=
        remove_member_spec hw hs1
      obtain ⟨s2, hs2, hw2, hmem2, hdead2, hacks2, hreq2, hmy2, hcfg2, hep2, hsq2⟩ :=
        ih hw1
      refine ⟨s2, ?_, hw2, ?_, ?_, ?_, ?_, ?_, ?_, ?_, ?_⟩
      · show (d :: rest).foldlM Gossip.remove_member s = some s2
        rw [List.foldlM_cons, hs1]
        exact hs2
      · intro y hy
        exact ((hmem1 y).mp (hmem2 y hy)).1
      · rw [hdead2, hdead1]
      · rw [hacks2, hacks1]
      · rw [hreq2, hreq1]
      · rw [hmy2, hmy1]
      · rw [hcfg2, hcfg1]
      · rw [hep2, hep1]
      · rw [hsq2, hsq1]

theorem update_alive_one_wf {s : Gossip} (hw : Wf s) (m : Addr) :
    Wf (s.update_alive_one m) := by
  unfold Gossip.update_alive_one
  split_ifs with h1 h2
  · exact hw
  · exact hw
  · constructor
    · refine List.Nodup.append hw.1 (List.nodup_singleton m) ?_
      intro x hx hxm
      rw [List.mem_singleton] at hxm
      subst hxm
      exact h2 ((hw.2 x).mp hx)
    · intro x
      simp only [List.mem_append, List.mem_singleton, List.mem_cons]
      rw [hw.2 x]
      tauto

theorem update_alive_one_frame (s : Gossip) (m : Addr) :
    (s.update_alive_one m).acks = s.acks ∧
    (s.update_alive_one m).requests = s.requests ∧
    (s.update_alive_one m).myself = s.myself ∧
    (s.update_alive_one m).config = s.config ∧
    (s.update_alive_one m).epoch = s.epoch ∧
    (s.update_alive_one m).sequence_number = s.sequence_number ∧
    (s.update_alive_one m).next_member_index = s.next_member_index := by
  unfold Gossip.update_alive_one
  split_ifs <;> exact ⟨rfl, rfl, rfl, rfl, rfl, rfl, rfl⟩

theorem update_alive_one_members {s : Gossip} {m : Addr} :
    (s.update_alive_one m).members = s.members ∨
    (s.update_alive_one m).members = s.members ++ [m] ∧ m ≠ s.myself := by
  unfold Gossip.update_alive_one
  split_ifs with h1 h2
  · exact Or.inl rfl
  · exact Or.inl rfl
  · exact Or.inr ⟨rfl, h1⟩

theorem update_alive_one_mem_self {s : Gossip} (hw : Wf s) {m : Addr}
    (hm : m ≠ s.myself) : m ∈ (s.update_alive_one m).members := by
  unfold Gossip.update_alive_one
  rw [if_neg hm]
  split_ifs with h2
  · exact (hw.2 m).mpr h2
  · simp

theorem update_alive_one_dead_subset {s : Gossip} {m y : Addr}
    (h : y ∈ (s.update_alive_one m).dead_members.data) :
    y ∈ s.dead_members.data := by
  unfold Gossip.update_alive_one at h
  split_ifs at h
  · exact h
  · exact (mem_removeAddr.mp h).1
  · exact (mem_removeAddr.mp h).1

theorem update_alive_one_dead_self {s : Gossip} {m : Addr} (hm : m ≠ s.myself) :
    m ∉ (s.update_alive_one m).dead_members.data := by
  unfold Gossip.update_alive_one
  rw [if_neg hm]
  split_ifs
  · exact not_mem_removeAddr_self
  · exact not_mem_removeAddr_self

theorem update_alive_one_members_mono {s : Gossip} {m y : Addr}
    (h : y ∈ s.members) : y ∈ (s.update_alive_one m).members := by
  rcases update_alive_one_members (s := s) (m := m) with he | ⟨he, _⟩
  · rw [he]; exact h
  · rw [he]; exact List.mem_append_left _ h

theorem foldl_update_alive_wf {A : List Addr} :
    ∀ {s : Gossip}, Wf s → Wf (A.foldl Gossip.update_alive_one s) := by
  induction A with
  | nil => intro s hw; exact hw
  | cons a rest ih =>
      intro s hw
      rw [List.foldl_cons]
      exact ih (update_alive_one_wf hw a)

theorem foldl_update_alive_frame (A : List Addr) :
    ∀ (s : Gossip),
    (A.foldl Gossip.update_alive_one s).acks = s.acks ∧
    (A.foldl Gossip.update_alive_one s).requests = s.requests ∧
    (A.foldl Gossip.update_alive_one s).myself = s.myself ∧
    (A.foldl Gossip.update_alive_one s).config = s.config ∧
    (A.foldl Gossip.update_alive_one s).epoch = s.epoch ∧
    (A.foldl Gossip.update_alive_one s).sequence_number = s.sequence_number ∧
    (A.foldl Gossip.update_alive_one s).next_member_index = s.next_member_index := by
  induction A with
  | nil => intro s; exact ⟨rfl, rfl, rfl, rfl, rfl, rfl, rfl⟩
  | cons a rest ih =>
      intro s
      rw [List.foldl_cons]
      obtain ⟨h1, h2, h3, h4, h5, h6, h7⟩ := ih (s.update_alive_one a)
      obtain ⟨g1, g2, g3, g4, g5, g6, g7⟩ := update_alive_one_frame s a
      exact ⟨h1.trans g1, h2.trans g2, h3.trans g3, h4.trans g4, h5.trans g5,
        h6.trans g6, h7.trans g7⟩

theorem foldl_update_alive_stable {A : List Addr} :
    ∀ {s : Gossip} {x : Addr}, x ∈ s.members → x ∉ s.dead_members.data →
    x ∈ (A.foldl Gossip.update_alive_one s).members ∧
    x ∉ (A.foldl Gossip.update_alive_one s).dead_members.data := by
  induction A with
  | nil => intro s x h1 h2; exact ⟨h1, h2⟩
  | cons a rest ih =>
      intro s x h1 h2
      rw [List.foldl_cons]
      exact ih (update_alive_one_members_mono h1)
        (fun hc => h2 (update_alive_one_dead_subset hc))

theorem foldl_update_alive_mem {A : List Addr} :
    ∀ {s : Gossip} {x : Addr}, Wf s → x ∈ A → x ≠ s.myself →
    x ∈ (A.foldl Gossip.update_alive_one s).members ∧
    x ∉ (A.foldl Gossip.update_alive_one s).dead_members.data := by
  induction A with
  | nil => intro s x _ hx; simp at hx
  | cons a rest ih =>
      intro s x hw hx hmy
      rw [List.foldl_cons]
      rcases List.mem_cons.mp hx with rfl | hx
      · exact foldl_update_alive_stable (update_alive_one_mem_self hw hmy)
          (update_alive_one_dead_self hmy)
      · refine ih (update_alive_one_wf hw a) hx ?_
        rw [(update_alive_one_frame s a).2.2.1]
        exact hmy

theorem kill_one_spec {s s' : Gossip} {m : Addr} (hw : Wf s)
    (h : s.kill_one m = some s') :
    Wf s' ∧ m ∉ s'.members ∧ m ∈ s'.dead_members.data ∧
    (∀ y, y ∈ s'.members → y ∈ s.members) ∧
    (∀ y, y ∈ s'.dead_members.data → y ∈ s.dead_members.data ∨ y = m) ∧
    s'.acks = s.acks ∧ s'.myself = s.myself ∧ s'.config = s.config := by
  unfold Gossip.kill_one at h
  rcases hrm : s.remove_member m with _ | s1
  · rw [hrm] at h; simp at h
  · rw [hrm] at h
    have h2 : some { s1 with dead_members := s1.dead_members.push m } = some s' := h
    rw [Option.some_inj] at h2
    subst h2
    obtain ⟨hw1, hmem1, hpres1, hdead1, hacks1, hreq1, hmy1, hcfg1, _, _⟩ :=
      remove_member_spec hw hrm
    refine ⟨⟨hw1.1, hw1.2⟩, ?_, ?_, ?_, ?_, hacks1, hmy1, hcfg1⟩
    · intro hc
      exact ((hmem1 m).mp hc).2 rfl
    · exact mem_push_self _ m
    · intro y hy
      exact ((hmem1 y).mp hy).1
    · intro y hy
      rcases mem_push_of_mem hy with hy | hy
      · rw [hdead1] at hy
        exact Or.inl hy
      · exact Or.inr hy

theorem kill_members_spec {ms : List Addr} :
    ∀ {s : Gossip}, Wf s →
    ∃ s', s.kill_members ms = some s' ∧ Wf s' ∧
      (∀ y, y ∈ s'.members → y ∈ s.members) ∧
      s'.acks = s.acks ∧ s'.myself = s.myself ∧ s'.config = s.config := by
  induction ms with
  | nil =>
      intro s hw
      exact ⟨s, rfl, hw, fun y hy => hy, rfl, rfl, rfl⟩
  | cons m rest ih =>
      intro s hw
      obtain ⟨s0, hs0⟩ := remove_member_total hw m
      have hk1 : s.kill_one m = some { s0 with dead_members := s0.dead_members.push m } := by
        unfold Gossip.kill_one
        rw [hs0]
        rfl
      set s1 := { s0 with dead_members := s0.dead_members.push m } with hs1def
      obtain ⟨hw1, _, _, hmem1, _, hacks1, hmy1, hcfg1⟩ := kill_one_spec hw hk1
      obtain ⟨s2, hs2, hw2, hmem2, hacks2, hmy2, hcfg2⟩ := ih hw1
      refine ⟨s2, ?_, hw2, ?_, ?_, ?_, ?_⟩
      · show (m :: rest).foldlM Gossip.kill_one s = some s2
        rw [List.foldlM_cons, hk1]
        exact hs2
      · intro y hy
        exact hmem1 y (hmem2 y hy)
      · rw [hacks2, hacks1]
      · rw [hmy2, hmy1]
      · rw [hcfg2, hcfg1]

theorem position_mem {l : List Addr} {m : Addr} {i : Nat}
    (h : position l m = some i) : m ∈ l := by
  induction l generalizing i with
  | nil => simp [position] at h
  | cons x rest ih =>
      by_cases hx : x = m
      · subst hx
        exact List.mem_cons_self _ _
      · simp only [position, if_neg hx, Option.map_eq_some'] at h
        obtain ⟨j, hj, rfl⟩ := h
        exact List.mem_cons_of_mem _ (ih hj)

theorem remove_member_cursor {s s' : Gossip} {m : Addr} (_hw : Wf s)
    (hc : CursorInv s) (h : s.remove_member m = some s') : CursorInv s' := by
  unfold Gossip.remove_member at h
  by_cases hm : m ∈ s.members_presence
  · rw [if_pos hm] at h
    rcases hpos : position s.members m with _ | idx
    · rw [hpos] at h
      simp at h
    · rw [hpos] at h
      rw [Option.some_inj] at h
      subst h
      have hidx : idx < s.members.length := position_lt_length hpos
      have hlen : (s.members.eraseIdx idx).length = s.members.length - 1 := by
        rw [List.length_eraseIdx, if_pos hidx]
      have hni : s.next_member_index < s.members.length := by
        rcases hc with ⟨he, _⟩ | hlt
        · rw [he] at hidx
          simp at hidx
        · exact hlt
      by_cases h1 : s.members.length = 1
      · left
        constructor
        · show s.members.eraseIdx idx = []
          rw [← List.length_eq_zero, hlen, h1]
        · show (if idx ≤ s.next_member_index ∧ 0 < s.next_member_index then
              s.next_member_index - 1 else s.next_member_index) = 0
          have : s.next_member_index = 0 := by omega
          rw [this]
          simp
      · right
        show (if idx ≤ s.next_member_index ∧ 0 < s.next_member_index then
            s.next_member_index - 1 else s.next_member_index) <
          (s.members.eraseIdx idx).length
        rw [hlen]
        split_ifs with hcond
        · omega
        · rw [Decidable.not_and_iff_or_not] at hcond
          rcases hcond with hcond | hcond
          · omega
          · omega
  · rw [if_neg hm] at h
    rw [Option.some_inj] at h
    subst h
    exact hc

theorem remove_members_cursor {D : List Addr} :
    ∀ {s s' : Gossip}, Wf s → CursorInv s → s.remove_members D = some s' →
    CursorInv s' := by
  induction D with
  | nil =>
      intro s s' _ hc h
      rw [show s.remove_members [] = some s from rfl, Option.some_inj] at h
      subst h
      exact hc
  | cons d rest ih =>
      intro s s' hw hc h
      rw [show s.remove_members (d :: rest) =
          (s.remove_member d).bind (fun s1 => s1.remove_members rest) from by
        unfold Gossip.remove_members
        rw [List.foldlM_cons]
        rfl] at h
      rcases hd : s.remove_member d with _ | s1
      · rw [hd] at h
        simp at h
      · rw [hd] at h
        have h1 : s1.remove_members rest = some s' := h
        exact ih (remove_member_spec hw hd).1 (remove_member_cursor hw hc hd) h1

theorem update_alive_one_cursor {s : Gossip} (hc : CursorInv s) (m : Addr) :
    CursorInv (s.update_alive_one m) := by
  have hni := (update_alive_one_frame s m).2.2.2.2.2.2
  rcases update_alive_one_members (s := s) (m := m) with he | ⟨he, _⟩
  · unfold CursorInv
    rw [he, hni]
    exact hc
  · unfold CursorInv
    rw [he, hni]
    rcases hc with ⟨hmem, hi⟩ | hlt
    · right
      rw [hmem, hi]
      simp
    · right
      rw [List.length_append]
      omega

theorem foldl_update_alive_cursor {A : List Addr} :
    ∀ {s : Gossip}, CursorInv s → CursorInv (A.foldl Gossip.update_alive_one s) := by
  induction A with
  | nil => intro s hc; exact hc
  | cons a rest ih =>
      intro s hc
      rw [List.foldl_cons]
      exact ih (update_alive_one_cursor hc a)

theorem kill_members_cursor {ms : List Addr} :
    ∀ {s s' : Gossip}, Wf s → CursorInv s → s.kill_members ms = some s' →
    CursorInv s' := by
  induction ms with
  | nil =>
      intro s s' _ hc h
      rw [show s.kill_members [] = some s from rfl, Option.some_inj] at h
      subst h
      exact hc
  | cons m rest ih =>
      intro s s' hw hc h
      rw [show s.kill_members (m :: rest) =
          (s.kill_one m).bind (fun s1 => s1.kill_members rest) from by
        unfold Gossip.kill_members
        rw [List.foldlM_cons]
        rfl] at h
      rcases hk : s.kill_one m with _ | s1
      · rw [hk] at h
        simp at h
      · rw [hk] at h
        have h1 : s1.kill_members rest = some s' := h
        have hw1 : Wf s1 := (kill_one_spec hw hk).1
        have hc1 : CursorInv s1 := by
          unfold Gossip.kill_one at hk
          rcases hrm : s.remove_member m with _ | s0
          · rw [hrm] at hk
            simp at hk
          · rw [hrm] at hk
            have hk2 : some { s0 with dead_members := s0.dead_members.push m } = some s1 := hk
            rw [Option.some_inj] at hk2
            subst hk2
            have hc0 := remove_member_cursor hw hc hrm
            unfold CursorInv at hc0 ⊢
            exact hc0
        exact ih hw1 hc1 h1

theorem get_next_member_cursor {s : Gossip} (hc : CursorInv s) :
    ∃ r, s.get_next_member = some r ∧ CursorInv r.2 ∧ r.2.members = s.members ∧
      (r.1 = none ↔ s.members = []) := by
  unfold Gossip.get_next_member
  by_cases he : s.members.isEmpty
  · rw [if_pos he]
    refine ⟨(none, s), rfl, hc, rfl, ?_⟩
    simp [List.isEmpty_iff.mp he]
  · rw [if_neg he]
    have hne : s.members ≠ [] := fun hc' => he (by rw [hc']; rfl)
    have hni : s.next_member_index < s.members.length := by
      rcases hc with ⟨he', _⟩ | hlt
      · exact absurd he' hne
      · exact hlt
    rw [List.get?_eq_get hni]
    refine ⟨_, rfl, ?_, rfl, ?_⟩
    · right
      show (s.next_member_index + 1) % s.members.length < s.members.length
      exact Nat.mod_lt _ (by omega)
    · simp [hne]

/-- C6: every registry operation preserves the round-robin cursor invariant,
and a removal at position `i ≤ next_index` with `next_index > 0` decrements
the cursor by exactly one. -/
theorem C6_cursor_invariant : ∀ s : Gossip, Wf s → CursorInv s →
    (∀ A D s', s.update_members A D = some s' → CursorInv s') ∧
    (∀ ms s', s.kill_members ms = some s' → CursorInv s') ∧
    (∀ m s', s.remove_member m = some s' → CursorInv s') ∧
    (∃ r, s.get_next_member = some r ∧ CursorInv r.2) ∧
    (∀ m i s', position s.members m = some i → i ≤ s.next_member_index →
      0 < s.next_member_index → s.remove_member m = some s' →
      s'.next_member_index = s.next_member_index - 1) := by
  intro s hw hc
  refine ⟨?_, ?_, ?_, ?_, ?_⟩
  · intro A D s' h
    unfold Gossip.update_members at h
    rcases hd : s.remove_members D with _ | s1
    · rw [hd] at h
      simp at h
    · rw [hd] at h
      have h1 : some (A.foldl Gossip.update_alive_one s1) = some s' := h
      rw [Option.some_inj] at h1
      subst h1
      exact foldl_update_alive_cursor (remove_members_cursor hw hc hd)
  · intro ms s' h
    exact kill_members_cursor hw hc h
  · intro m s' h
    exact remove_member_cursor hw hc h
  · obtain ⟨r, hr, hcr, _, _⟩ := get_next_member_cursor hc
    exact ⟨r, hr, hcr⟩
  · intro m i s' hpos hle hpos0 h
    unfold Gossip.remove_member at h
    have hm : m ∈ s.members_presence := (hw.2 m).mp (position_mem hpos)
    rw [if_pos hm, hpos] at h
    rw [Option.some_inj] at h
    subst h
    show (if i ≤ s.next_member_index ∧ 0 < s.next_member_index then
        s.next_member_index - 1 else s.next_member_index) = s.next_member_index - 1
    rw [if_pos ⟨hle, hpos0⟩]

/-- A concrete well-formed state used by the witnesses: two peers `5`, `6`
alive, one address `7` on the dead ring, cursor at `1`. -/
def wState : Gossip :=
  { config := ProtocolConfig.default
    members := [5, 6]
    dead_members := ⟨5, [7]⟩
    members_presence := [5, 6]
    next_member_index := 1
    epoch := 3
    sequence_number := 4
    myself := 0
    requests := []
    acks := [] }

theorem wState_wf : Wf wState := by
  constructor
  · decide
  · intro x
    constructor <;> (intro h; exact h)

theorem wState_cursor : CursorInv wState := by
  right
  decide

theorem C6_cursor_invariant_witness :
    CursorInv wState ∧
    (∃ r, wState.get_next_member = some r ∧ CursorInv r.2) := by
  have h := C6_cursor_invariant wState wState_wf wState_cursor
  exact ⟨wState_cursor, h.2.2.2.1⟩

/-- C3: a timed-out pending `Ping` enqueues exactly one `PingIndirect` for the
same header at the back of the request queue; a timed-out pending
`PingIndirect` removes the target from the alive list and pushes it onto the
dead ring. -/
theorem C3_timeout_escalation : ∀ (s : Gossip) (h : Header),
    (Gossip.handle_timeout_ack s ⟨Request.Ping h⟩ =
      some { s with requests := s.requests ++ [Request.PingIndirect h] }) ∧
    (Wf s → ∃ s', Gossip.handle_timeout_ack s ⟨Request.PingIndirect h⟩ = some s' ∧
      h.target ∉ s'.members ∧ h.target ∈ s'.dead_members.data) := by
  intro s h
  constructor
  · rfl
  · intro hw
    obtain ⟨s0, hs0⟩ := remove_member_total hw h.target
    have hk : s.kill_one h.target =
        some { s0 with dead_members := s0.dead_members.push h.target } := by
      unfold Gossip.kill_one
      rw [hs0]
      rfl
    obtain ⟨_, hnot, hdead, _, _, _, _, _⟩ := kill_one_spec hw hk
    refine ⟨_, ?_, hnot, hdead⟩
    show s.kill_members [h.target] = _
    unfold Gossip.kill_members
    rw [List.foldlM_cons, hk]
    rfl

theorem C3_timeout_escalation_witness :
    (Gossip.handle_timeout_ack wState ⟨Request.Ping ⟨5, 3, 2⟩⟩ =
      some { wState with requests := wState.requests ++ [Request.PingIndirect ⟨5, 3, 2⟩] }) ∧
    (∃ s', Gossip.handle_timeout_ack wState ⟨Request.PingIndirect ⟨5, 3, 2⟩⟩ = some s' ∧
      5 ∉ s'.members ∧ 5 ∈ s'.dead_members.data) := by
  have h := C3_timeout_escalation wState ⟨5, 3, 2⟩
  exact ⟨h.1, h.2 wState_wf⟩

/-- C5: in a single `update_members(A, D)` call the dead list is processed
first, so any `x ∈ A` other than `myself` — even one also occurring in `D` —
is alive and not on the dead ring afterwards. -/
theorem C5_alive_overrides_dead : ∀ (s : Gossip) (A D : List Addr) (x : Addr),
    Wf s → x ∈ A → x ≠ s.myself →
    ∃ s', s.update_members A D = some s' ∧
      x ∈ s'.members ∧ x ∈ s'.members_presence ∧ x ∉ s'.dead_members.data := by
  intro s A D x hw hx hmy
  obtain ⟨s1, hs1, hw1, _, _, _, _, hmy1, _, _, _⟩ := remove_members_spec hw
  have hx1 : x ≠ s1.myself := by
    rw [hmy1]
    exact hmy
  obtain ⟨hmem, hdead⟩ := foldl_update_alive_mem hw1 hx hx1
  refine ⟨A.foldl Gossip.update_alive_one s1, ?_, hmem, ?_, hdead⟩
  · unfold Gossip.update_members
    rw [hs1]
    rfl
  · exact ((foldl_update_alive_wf hw1).2 x).mp hmem

theorem C5_alive_overrides_dead_witness :
    ∃ s', wState.update_members [7] [5, 7] = some s' ∧
      7 ∈ s'.members ∧ 7 ∈ s'.members_presence ∧ 7 ∉ s'.dead_members.data :=
  C5_alive_overrides_dead wState [7] [5, 7] 7 wState_wf (by decide) (by decide)

/-! ## Round-robin fairness (C7) -/

/-- `k` consecutive `get_next_member()` calls, collecting the returned
members; fails if any call returns `None` or panics. -/
def nextCalls : Gossip → Nat → Option (List Addr × Gossip)
  | s, 0 => some ([], s)
  | s, k + 1 =>
    match s.get_next_member with
    | some (some a, s') => (nextCalls s' k).map (fun p => (a :: p.1, p.2))
    | _ => none

theorem nextCalls_rotate {k : Nat} :
    ∀ {s : Gossip}, s.members ≠ [] → s.next_member_index < s.members.length →
    k ≤ s.members.length →
    (nextCalls s k).map Prod.fst =
      some (((s.members.drop s.next_member_index ++
        s.members.take s.next_member_index)).take k) := by
  induction k with
  | zero => intro s _ _ _; simp [nextCalls]
  | succ k ih =>
      intro s hne hni hk
      have hlenpos : 0 < s.members.length := List.length_pos.mpr hne
      have hempty : s.members.isEmpty = false := by
        cases hm : s.members with
        | nil => exact absurd hm hne
        | cons a l => rfl
      have hget : s.members.get? s.next_member_index =
          some (s.members.get ⟨s.next_member_index, hni⟩) := List.get?_eq_get hni
      rw [show nextCalls s (k + 1) =
          match s.get_next_member with
          | some (some a, s') => (nextCalls s' k).map (fun p => (a :: p.1, p.2))
          | _ => none from rfl]
      unfold Gossip.get_next_member
      rw [if_neg (by rw [hempty]; exact Bool.false_ne_true), hget]
      set i := s.next_member_index with hidef
      set n := s.members.length with hndef
      set s1 : Gossip := { s with next_member_index := (i + 1) % n } with hs1def
      have hs1mem : s1.members = s.members := rfl
      have hs1idx : s1.next_member_index = (i + 1) % n := rfl
      have hmod : (i + 1) % n < n := Nat.mod_lt _ hlenpos
      have ihs := ih (s := s1) (by rw [hs1mem]; exact hne)
        (by rw [hs1mem, hs1idx, ← hndef]; exact hmod)
        (by rw [hs1mem, ← hndef]; omega)
      rw [Option.map_map]
      have hcomp : (Prod.fst ∘ fun p : List Addr × Gossip =>
          ((s.members.get ⟨i, hni⟩) :: p.1, p.2)) =
          fun p : List Addr × Gossip => (s.members.get ⟨i, hni⟩) :: p.1 := rfl
      rw [hcomp]
      have hmapmap : (nextCalls s1 k).map (fun p : List Addr × Gossip =>
          (s.members.get ⟨i, hni⟩) :: p.1) =
          ((nextCalls s1 k).map Prod.fst).map
            (fun l : List Addr => (s.members.get ⟨i, hni⟩) :: l) := by
        rw [Option.map_map]
        rfl
      rw [hmapmap, ihs]
      rw [Option.map_some']
      rw [Option.some_inj]
      show s.members[i] ::
          (s.members.drop ((i + 1) % n) ++ s.members.take ((i + 1) % n)).take k =
        (s.members.drop i ++ s.members.take i).take (k + 1)
      by_cases hwrap : i + 1 < n
      · have hmodeq : (i + 1) % n = i + 1 := Nat.mod_eq_of_lt hwrap
        rw [hmodeq]
        have hdrop : s.members.drop i = s.members[i] :: s.members.drop (i + 1) :=
          List.drop_eq_getElem_cons hni
        have htakesucc : s.members.take (i + 1) =
            s.members.take i ++ [s.members[i]] := by
          rw [List.take_succ]
          have hsome : s.members[i]? = some s.members[i] := List.getElem?_eq_getElem hni
          rw [hsome]
          rfl
        rw [hdrop, htakesucc]
        rw [List.cons_append, List.take_succ_cons]
        rw [← List.append_assoc]
        have hlen1 : (s.members.drop (i + 1) ++ s.members.take i).length = n - 1 := by
          rw [List.length_append, List.length_drop, List.length_take]
          rw [← hndef]
          omega
        rw [List.take_append_of_le_length (by omega)]
      · have hi : i + 1 = n := by omega
        have hmodeq : (i + 1) % n = 0 := by
          rw [hi, Nat.mod_self]
        rw [hmodeq]
        simp only [List.drop_zero, List.take_zero, List.append_nil]
        have hdrop : s.members.drop i = [s.members[i]] := by
          have hd : s.members.drop i = s.members[i] :: s.members.drop (i + 1) :=
            List.drop_eq_getElem_cons hni
          rw [hd, hi, List.drop_length]
        rw [hdrop, List.singleton_append, List.take_succ_cons]
        rw [List.take_take]
        have hmin : min k i = k := by omega
        rw [hmin]

/-- C7: from any state satisfying the registry invariants, `len(alive)`
consecutive `get_next_member()` calls all succeed and return every alive
member exactly once (a permutation of the alive list); a single call returns
`None` exactly when the alive list is empty. -/
theorem C7_round_robin : ∀ s : Gossip, s.members.Nodup → CursorInv s →
    (∃ out, (nextCalls s s.members.length).map Prod.fst = some out ∧
      out.Perm s.members ∧ (∀ m ∈ s.members, out.count m = 1) ∧
      out.length = s.members.length) ∧
    (∃ r, s.get_next_member = some r ∧ (r.1 = none ↔ s.members = [])) := by
  intro s hnd hc
  constructor
  · by_cases hne : s.members = []
    · refine ⟨[], ?_, ?_, ?_, ?_⟩
      · rw [hne]
        simp [nextCalls]
      · rw [hne]
      · intro m hm
        rw [hne] at hm
        simp at hm
      · rw [hne]
    · have hni : s.next_member_index < s.members.length := by
        rcases hc with ⟨he, _⟩ | hlt
        · exact absurd he hne
        · exact hlt
      have hrot := nextCalls_rotate (k := s.members.length) hne hni le_rfl
      set rot := s.members.drop s.next_member_index ++
        s.members.take s.next_member_index with hrotdef
      have hlenrot : rot.length = s.members.length := by
        rw [hrotdef, List.length_append, List.length_drop, List.length_take]
        omega
      have htake : rot.take s.members.length = rot := by
        rw [← hlenrot, List.take_length]
      have hperm : rot.Perm s.members := by
        have h1 : rot.Perm (s.members.take s.next_member_index ++
            s.members.drop s.next_member_index) := List.perm_append_comm
        rw [List.take_append_drop] at h1
        exact h1
      refine ⟨rot, ?_, hperm, ?_, hlenrot⟩
      · rw [hrot, htake]
      · intro m hm
        rw [hperm.count_eq]
        have h1 := List.nodup_iff_count_le_one.mp hnd m
        have h2 : 0 < s.members.count m := List.count_pos_iff.mpr hm
        omega
  · obtain ⟨r, hr, _, _, hiff⟩ := get_next_member_cursor hc
    exact ⟨r, hr, hiff⟩

theorem C7_round_robin_witness :
    (∃ out, (nextCalls wState wState.members.length).map Prod.fst = some out ∧
      out.Perm wState.members ∧ (∀ m ∈ wState.members, out.count m = 1) ∧
      out.length = wState.members.length) ∧
    (∃ r, wState.get_next_member = some r ∧ (r.1 = none ↔ wState.members = [])) :=
  C7_round_robin wState (by decide) wState_cursor

/-! ## Epoch and sequence-number monotonicity (C8) -/

/-- `k` consecutive `get_next_sequence_number()` calls, collecting the
returned sequence numbers. -/
def seqCalls : Gossip → Nat → List Nat × Gossip
  | s, 0 => ([], s)
  | s, k + 1 =>
    let (v, s1) := s.get_next_sequence_number
    let (vs, s2) := seqCalls s1 k
    (v :: vs, s2)

theorem seqCalls_range' {k : Nat} :
    ∀ {s : Gossip}, s.sequence_number + k ≤ u64Mod →
    (seqCalls s k).1 = List.range' s.sequence_number k := by
  induction k with
  | zero => intro s _; rfl
  | succ k ih =>
      intro s hk
      show s.sequence_number ::
        (seqCalls { s with sequence_number := (s.sequence_number + 1) % u64Mod } k).1 =
        List.range' s.sequence_number (k + 1)
      rcases Nat.eq_or_lt_of_le hk with heq | hlt
      · have hk0 : k = 0 ∨ s.sequence_number + 1 < u64Mod := by omega
        rcases hk0 with rfl | hsucc
        · rfl
        · have hmod : (s.sequence_number + 1) % u64Mod = s.sequence_number + 1 :=
            Nat.mod_eq_of_lt hsucc
          rw [show List.range' s.sequence_number (k + 1) =
              s.sequence_number :: List.range' (s.sequence_number + 1) k from rfl]
          rw [ih (s := { s with sequence_number := (s.sequence_number + 1) % u64Mod })
            (by show (s.sequence_number + 1) % u64Mod + k ≤ u64Mod; rw [hmod]; omega)]
          rw [show ({ s with sequence_number := (s.sequence_number + 1) % u64Mod } :
              Gossip).sequence_number = (s.sequence_number + 1) % u64Mod from rfl, hmod]
      · have hsucc : s.sequence_number + 1 < u64Mod := by omega
        have hmod : (s.sequence_number + 1) % u64Mod = s.sequence_number + 1 :=
          Nat.mod_eq_of_lt hsucc
        rw [show List.range' s.sequence_number (k + 1) =
            s.sequence_number :: List.range' (s.sequence_number + 1) k from rfl]
        rw [ih (s := { s with sequence_number := (s.sequence_number + 1) % u64Mod })
          (by show (s.sequence_number + 1) % u64Mod + k ≤ u64Mod; rw [hmod]; omega)]
        rw [show ({ s with sequence_number := (s.sequence_number + 1) % u64Mod } :
            Gossip).sequence_number = (s.sequence_number + 1) % u64Mod from rfl, hmod]

theorem advance_epoch_epoch {s s' : Gossip} (h : s.advance_epoch = some s') :
    s'.epoch = (s.epoch + 1) % u64Mod := by
  unfold Gossip.advance_epoch at h
  rcases hg : s.get_next_member with _ | r
  · rw [hg] at h
    simp at h
  · rw [hg] at h
    obtain ⟨m, s1⟩ := r
    have hs1 : s1.epoch = s.epoch := by
      unfold Gossip.get_next_member at hg
      split_ifs at hg with he
      · rw [Option.some_inj] at hg
        have := congrArg Prod.snd hg
        simp at this
        rw [← this]
      · rcases hget : s.members.get? s.next_member_index with _ | t
        · rw [hget] at hg
          simp at hg
        · rw [hget] at hg
          rw [Option.some_inj] at hg
          have := congrArg Prod.snd hg
          simp at this
          rw [← this]
    cases m with
    | none =>
        have h2 : some { s1 with epoch := (s1.epoch + 1) % u64Mod } = some s' := h
        rw [Option.some_inj] at h2
        subst h2
        show (s1.epoch + 1) % u64Mod = (s.epoch + 1) % u64Mod
        rw [hs1]
    | some member =>
        have h2 : some { s1 with
            requests := Request.Ping ⟨member, s1.epoch, s1.sequence_number⟩ :: s1.requests,
            sequence_number := (s1.sequence_number + 1) % u64Mod,
            epoch := (s1.epoch + 1) % u64Mod } = some s' := h
        rw [Option.some_inj] at h2
        subst h2
        show (s1.epoch + 1) % u64Mod = (s.epoch + 1) % u64Mod
        rw [hs1]

/-- C8: a protocol-period transition increments the epoch counter by exactly
one (as a wrapping `u64`), hence strictly increases it below the wrap bound,
and consecutive `get_next_sequence_number` calls emit consecutive, pairwise
distinct, strictly increasing sequence numbers as long as the `u64` counter
does not wrap. -/
theorem C8_epoch_sequence_monotone : ∀ (s s' : Gossip) (k : Nat),
    s.advance_epoch = some s' →
    s.sequence_number + k ≤ u64Mod →
    s'.epoch = (s.epoch + 1) % u64Mod ∧
    (s.epoch + 1 < u64Mod → s.epoch < s'.epoch) ∧
    (seqCalls s k).1 = List.range' s.sequence_number k ∧
    (seqCalls s k).1.Pairwise (· < ·) ∧
    (seqCalls s k).1.Nodup := by
  intro s s' k hadv hk
  have hep := advance_epoch_epoch hadv
  have hrange := seqCalls_range' hk
  refine ⟨hep, ?_, hrange, ?_, ?_⟩
  · intro hlt
    rw [hep, Nat.mod_eq_of_lt hlt]
    omega
  · rw [hrange]
    exact List.pairwise_lt_range' _ _
  · rw [hrange]
    exact List.nodup_range' _ _

theorem C8_epoch_sequence_monotone_witness :
    ∃ s', wState.advance_epoch = some s' ∧
      (s'.epoch = (wState.epoch + 1) % u64Mod ∧
        (wState.epoch + 1 < u64Mod → wState.epoch < s'.epoch) ∧
        (seqCalls wState 3).1 = List.range' wState.sequence_number 3 ∧
        (seqCalls wState 3).1.Pairwise (· < ·) ∧
        (seqCalls wState 3).1.Nodup) := by
  refine ⟨_, rfl, C8_epoch_sequence_monotone wState _ 3 rfl ?_⟩
  show 4 + 3 ≤ 2 ^ 64
  norm_num

/-! ## Probe-variant bookkeeping and the ack-matching walk (C2, C4, C10) -/

/-- The three request variants that ever occur inside a pending ack. -/
def Request.isProbe : Request → Bool
  | .Ping _ => true
  | .PingIndirect _ => true
  | .PingProxy _ _ => true
  | _ => false

/-- The matching policy of the `Gossip::handle_ack` walk, given the head `t`
of the inbound alive piggyback. -/
def dischargedBy (letter : IncomingLetter) (t : Addr) (a : Ack) : Bool :=
  match a.request with
  | .PingIndirect h =>
      decide (t = h.target ∧ letter.message.sequence_number = h.sequence_number)
  | .PingProxy h _ =>
      decide (letter.sender = h.target ∧
        letter.message.sequence_number = h.sequence_number)
  | .Ping h =>
      decide (letter.sender = h.target ∧
        letter.message.sequence_number = h.sequence_number)
  | _ => false

theorem ackWalk_filter {letter : IncomingLetter} {t : Addr} {rest0 : List Addr}
    (he : letter.message.alive = t :: rest0) :
    ∀ pending : List Ack, (∀ a ∈ pending, a.request.isProbe = true) →
    ∃ rq, ackWalk letter pending =
      some (pending.filter (fun a => !dischargedBy letter t a), rq) := by
  intro pending
  induction pending with
  | nil => intro _; exact ⟨[], rfl⟩
  | cons a rest ih =>
      intro hp
      have hpa : a.request.isProbe = true := hp a (List.mem_cons_self a rest)
      have hprest : ∀ b ∈ rest, b.request.isProbe = true :=
        fun b hb => hp b (List.mem_cons_of_mem a hb)
      obtain ⟨rq, hrq⟩ := ih hprest
      obtain ⟨req⟩ := a
      cases req with
      | Ack h => exact absurd hpa (by simp [Request.isProbe])
      | AckIndirect h m => exact absurd hpa (by simp [Request.isProbe])
      | Ping h =>
          by_cases hcond : letter.sender = h.target ∧
              letter.message.sequence_number = h.sequence_number
          · refine ⟨rq, ?_⟩
            simp [ackWalk, hcond, hrq, List.filter_cons, dischargedBy, hcond.1, hcond.2]
          · refine ⟨rq, ?_⟩
            simp [ackWalk, hcond, hrq, List.filter_cons, dischargedBy]
            rw [if_pos (not_and_or.mp hcond)]
      | PingIndirect h =>
          by_cases hcond : t = h.target ∧
              letter.message.sequence_number = h.sequence_number
          · refine ⟨rq, ?_⟩
            simp [ackWalk, he, hcond, hrq, List.filter_cons, dischargedBy,
              hcond.1, hcond.2]
          · refine ⟨rq, ?_⟩
            simp [ackWalk, he, hcond, hrq, List.filter_cons, dischargedBy]
            rw [if_pos (not_and_or.mp hcond)]
      | PingProxy h reply_to =>
          by_cases hcond : letter.sender = h.target ∧
              letter.message.sequence_number = h.sequence_number
          · refine ⟨Request.AckIndirect
              ⟨reply_to, letter.message.epoch, letter.message.sequence_number⟩
              letter.sender :: rq, ?_⟩
            simp [ackWalk, hcond, hrq, List.filter_cons, dischargedBy,
              hcond.1, hcond.2]
          · refine ⟨rq, ?_⟩
            simp [ackWalk, hcond, hrq, List.filter_cons, dischargedBy]
            rw [if_pos (not_and_or.mp hcond)]

/-- C4 (amended): the ack-matching walk discharges *every* pending entry that
matches the policy — possibly more than one — and retains exactly the
non-matching ones, in order; each discharged `PingProxy` additionally appends
an `AckIndirect` request. -/
theorem C4_discharge_matching : ∀ (s : Gossip) (letter : IncomingLetter) (t : Addr)
    (rest0 : List Addr),
    letter.message.alive = t :: rest0 →
    (∀ a ∈ s.acks, a.request.isProbe = true) →
    ∃ s' rq, s.handle_ack letter = some s' ∧
      s'.acks = s.acks.filter (fun a => !dischargedBy letter t a) ∧
      s'.requests = s.requests ++ rq := by
  intro s letter t rest0 he hp
  obtain ⟨rq, hrq⟩ := ackWalk_filter he s.acks hp
  refine ⟨{ s with
      acks := s.acks.filter (fun a => !dischargedBy letter t a)
      requests := s.requests ++ rq },
    rq, ?_, rfl, rfl⟩
  unfold Gossip.handle_ack
  rw [hrq]
  rfl

theorem C4_discharge_matching_witness :
    ∃ s' rq,
      Gossip.handle_ack
        { wState with acks := [⟨Request.Ping ⟨8, 0, 1⟩⟩,
          ⟨Request.PingProxy ⟨2, 0, 7⟩ 9⟩, ⟨Request.PingProxy ⟨2, 0, 7⟩ 9⟩] }
        ⟨2, ⟨MessageType.PingAck, 7, 0, [4], []⟩⟩ = some s' ∧
      s'.acks = List.filter
        (fun a => !dischargedBy ⟨2, ⟨MessageType.PingAck, 7, 0, [4], []⟩⟩ 4 a)
        [⟨Request.Ping ⟨8, 0, 1⟩⟩, ⟨Request.PingProxy ⟨2, 0, 7⟩ 9⟩,
          ⟨Request.PingProxy ⟨2, 0, 7⟩ 9⟩] ∧
      s'.requests = wState.requests ++ rq :=
  C4_discharge_matching
    { wState with acks := [⟨Request.Ping ⟨8, 0, 1⟩⟩,
      ⟨Request.PingProxy ⟨2, 0, 7⟩ 9⟩, ⟨Request.PingProxy ⟨2, 0, 7⟩ 9⟩] }
    ⟨2, ⟨MessageType.PingAck, 7, 0, [4], []⟩⟩ 4 [] rfl (by decide)

/-- The event trace behind the C4 counterexample: two identical inbound
`PingIndirect` relays give two pending `PingProxy` entries with the same
target and sequence number; one more pending entry comes from the initial
`Ping`. -/
def c4Events : List Event :=
  [Event.recv ⟨1, ⟨MessageType.PingIndirect, 7, 0, [2], []⟩⟩,
   Event.recv ⟨1, ⟨MessageType.PingIndirect, 7, 0, [2], []⟩⟩,
   Event.writableReady, Event.writableReady, Event.writableReady]

/-- The state reached by `c4Events` from the post-join state of node `0`. -/
def c4Run : Option Gossip :=
  (Gossip.postJoin 0 1 ProtocolConfig.default).bind (fun g => g.runEvents c4Events)

def c4Mid : Gossip := c4Run.getD (Gossip.new 0 ProtocolConfig.default)

/-- A single inbound ack from the proxied target `2` with the shared
sequence number `7`. -/
def c4Letter : IncomingLetter := ⟨2, ⟨MessageType.PingAck, 7, 0, [5], []⟩⟩

def c4After : Gossip := (c4Mid.handle_ack c4Letter).getD (Gossip.new 0 ProtocolConfig.default)

/-- C4 counterexample: in a reachable state with three pending acks, a single
inbound `PingAck` discharges two of them (both matching `PingProxy` entries),
so the walk does not discharge "at most one" matching pending entry. -/
theorem C4_counterexample :
    c4Run = some c4Mid ∧
    c4Mid.acks.length = 3 ∧
    Gossip.handle_ack c4Mid c4Letter = some c4After ∧
    c4After.acks.length = 1 := by decide

theorem ackWalk_none_of_pingIndirect {letter : IncomingLetter}
    (he : letter.message.alive = []) :
    ∀ pending : List Ack,
    (∃ a ∈ pending, ∃ hd, a.request = Request.PingIndirect hd) →
    ackWalk letter pending = none := by
  intro pending
  induction pending with
  | nil =>
      rintro ⟨a, ha, _⟩
      exact absurd ha (List.not_mem_nil a)
  | cons a rest ih =>
      rintro ⟨b, hb, hd, hbpi⟩
      obtain ⟨req⟩ := a
      cases req with
      | PingIndirect h => simp [ackWalk, he]
      | Ping h =>
          have hbrest : b ∈ rest := by
            rcases List.mem_cons.mp hb with rfl | h'
            · simp at hbpi
            · exact h'
          have hrest : ackWalk letter rest = none := ih ⟨b, hbrest, hd, hbpi⟩
          simp [ackWalk, hrest]
      | PingProxy h reply_to =>
          have hbrest : b ∈ rest := by
            rcases List.mem_cons.mp hb with rfl | h'
            · simp at hbpi
            · exact h'
          have hrest : ackWalk letter rest = none := ih ⟨b, hbrest, hd, hbpi⟩
          simp [ackWalk, hrest]
      | Ack h => simp [ackWalk]
      | AckIndirect h m => simp [ackWalk]

/-- C10: the inbound handlers are partial in the message: with an empty alive
piggyback, `handle_indirect_ping` always panics (indexing position 0), and
`handle_ack` panics whenever a pending ack of variant `PingIndirect` is
outstanding. -/
theorem C10_empty_alive_panics : ∀ (s : Gossip) (letter : IncomingLetter),
    letter.message.alive = [] →
    s.handle_indirect_ping letter = none ∧
    ((∃ a ∈ s.acks, ∃ hd, a.request = Request.PingIndirect hd) →
      s.handle_ack letter = none) := by
  intro s letter he
  constructor
  · unfold Gossip.handle_indirect_ping
    rw [he]
  · intro hex
    unfold Gossip.handle_ack
    rw [ackWalk_none_of_pingIndirect he s.acks hex]
    rfl

theorem C10_empty_alive_panics_witness :
    Gossip.handle_indirect_ping
      { wState with acks := [⟨Request.PingIndirect ⟨9, 0, 5⟩⟩] }
      ⟨6, ⟨MessageType.PingAck, 5, 0, [], []⟩⟩ = none ∧
    Gossip.handle_ack
      { wState with acks := [⟨Request.PingIndirect ⟨9, 0, 5⟩⟩] }
      ⟨6, ⟨MessageType.PingAck, 5, 0, [], []⟩⟩ = none := by
  have h := C10_empty_alive_panics
    { wState with acks := [⟨Request.PingIndirect ⟨9, 0, 5⟩⟩] }
    ⟨6, ⟨MessageType.PingAck, 5, 0, [], []⟩⟩ rfl
  exact ⟨h.1, h.2 ⟨⟨Request.PingIndirect ⟨9, 0, 5⟩⟩, by decide, ⟨9, 0, 5⟩, rfl⟩⟩

/-! ## PingIndirect rendering sends to the suspect itself (C2) -/

/-- The event trace behind the C2 failing input: node `0` joins via seed `2`,
learns of `3` from an inbound `Ping`, times out the initial `Ping` to `2`, and
is left with the escalated `PingIndirect` for suspect `2` at the queue head. -/
def c2Events : List Event :=
  [Event.recv ⟨3, ⟨MessageType.Ping, 9, 0, [], []⟩⟩,
   Event.writableReady, Event.timeouts [true], Event.writableReady]

def c2Run : Option Gossip :=
  (Gossip.postJoin 0 2 ProtocolConfig.default).bind (fun g => g.runEvents c2Events)

def c2Mid : Gossip := c2Run.getD (Gossip.new 0 ProtocolConfig.default)

/-- C2: rendering the escalated `PingIndirect` for suspect `2` in the
reachable state `c2Mid` (alive list `[2, 3]`) emits datagrams to the first
`num_indirect` alive members *including the suspect `2` itself* — the peers
are not chosen from "alive excluding M" (the source's FIXME acknowledges
this).  The piggyback (`[M] ++ (alive − M)` plus the dead ring) and the single
new pending ack behave as the claim states. -/
theorem C2_pingindirect_rendering :
    c2Run = some c2Mid ∧
    c2Mid.members = [2, 3] ∧
    c2Mid.requests = [Request.PingIndirect ⟨2, 0, 0⟩] ∧
    (c2Mid.handle_writable.2.map OutgoingLetter.target) = [2, 3] ∧
    (∀ l ∈ c2Mid.handle_writable.2,
      l.message.mtype = MessageType.PingIndirect ∧
      l.message.alive = 2 :: removeAddr c2Mid.members 2 ∧
      l.message.dead = c2Mid.dead_members.data ∧
      l.message.sequence_number = 0 ∧ l.message.epoch = 0) ∧
    c2Mid.handle_writable.1.acks =
      c2Mid.acks ++ [⟨Request.PingIndirect ⟨2, 0, 0⟩⟩] := by decide

/-! ## `myself` can reach the dead ring (C1) -/

/-- The event trace behind the C1 counterexample: an inbound `PingIndirect`
names `myself = 0` as its relay target (position 0 of the alive piggyback);
the resulting self-addressed `PingProxy` is rendered and then times out,
killing `myself` onto the dead ring. -/
def c1Events : List Event :=
  [Event.recv ⟨1, ⟨MessageType.PingIndirect, 7, 0, [0], []⟩⟩,
   Event.writableReady, Event.writableReady,
   Event.timeouts [false, true]]

def c1Run : Option Gossip :=
  (Gossip.postJoin 0 1 ProtocolConfig.default).bind (fun g => g.runEvents c1Events)

def c1Final : Gossip := c1Run.getD (Gossip.new 0 ProtocolConfig.default)

/-- C1 counterexample: a reachable state in which the node's own address
`myself = 0` sits on the dead ring. -/
theorem C1_counterexample :
    (Gossip.postJoin 0 1 ProtocolConfig.default).bind
      (fun g => g.runEvents c1Events) = some c1Final ∧
    c1Final.myself ∈ c1Final.dead_members.data := by decide

/-! ## Reachability invariants (C1, C9) -/

/-- `myself` is on neither the alive sequence nor the presence set. -/
def MyselfNotAlive (s : Gossip) : Prop :=
  s.myself ∉ s.members ∧ s.myself ∉ s.members_presence

/-- Every pending ack wraps a probe variant. -/
def ProbeAcksOnly (s : Gossip) : Prop :=
  ∀ a ∈ s.acks, a.request.isProbe = true

theorem remove_member_frame {s s' : Gossip} {m : Addr}
    (h : s.remove_member m = some s') :
    s'.myself = s.myself ∧ s'.acks = s.acks ∧ s'.requests = s.requests ∧
    (MyselfNotAlive s → MyselfNotAlive s') := by
  unfold Gossip.remove_member at h
  split_ifs at h with hm
  · rcases hpos : position s.members m with _ | i
    · rw [hpos] at h
      simp at h
    · rw [hpos] at h
      rw [Option.some_inj] at h
      subst h
      refine ⟨rfl, rfl, rfl, ?_⟩
      rintro ⟨h1, h2⟩
      constructor
      · intro hc
        exact h1 (List.Sublist.mem hc (List.eraseIdx_sublist s.members i))
      · intro hc
        exact h2 (mem_removeAddr.mp hc).1
  · rw [Option.some_inj] at h
    subst h
    exact ⟨rfl, rfl, rfl, id⟩

theorem remove_members_frame {D : List Addr} :
    ∀ {s s' : Gossip}, s.remove_members D = some s' →
    s'.myself = s.myself ∧ s'.acks = s.acks ∧
    (MyselfNotAlive s → MyselfNotAlive s') := by
  induction D with
  | nil =>
      intro s s' h
      have h2 : some s = some s' := h
      rw [Option.some_inj] at h2
      subst h2
      exact ⟨rfl, rfl, id⟩
  | cons d rest ih =>
      intro s s' h
      rw [show s.remove_members (d :: rest) =
          (s.remove_member d).bind (fun s1 => s1.remove_members rest) from by
        unfold Gossip.remove_members
        rw [List.foldlM_cons]
        rfl] at h
      rcases hd : s.remove_member d with _ | s1
      · rw [hd] at h
        simp at h
      · rw [hd] at h
        have h1 : s1.remove_members rest = some s' := h
        obtain ⟨f1, f2, _, f4⟩ := remove_member_frame hd
        obtain ⟨i1, i2, i3⟩ := ih h1
        exact ⟨i1.trans f1, i2.trans f2, fun hna => i3 (f4 hna)⟩

theorem update_alive_one_na {s : Gossip} (hna : MyselfNotAlive s) (m : Addr) :
    MyselfNotAlive (s.update_alive_one m) := by
  unfold Gossip.update_alive_one
  split_ifs with h1 h2
  · exact hna
  · exact hna
  · constructor
    · show s.myself ∉ s.members ++ [m]
      rw [List.mem_append]
      rintro (hc | hc)
      · exact hna.1 hc
      · rw [List.mem_singleton] at hc
        exact h1 hc.symm
    · show s.myself ∉ m :: s.members_presence
      rw [List.mem_cons]
      rintro (hc | hc)
      · exact h1 hc.symm
      · exact hna.2 hc

theorem foldl_update_alive_na {A : List Addr} :
    ∀ {s : Gossip}, MyselfNotAlive s →
    MyselfNotAlive (A.foldl Gossip.update_alive_one s) := by
  induction A with
  | nil => intro s hna; exact hna
  | cons a rest ih =>
      intro s hna
      rw [List.foldl_cons]
      exact ih (update_alive_one_na hna a)

theorem update_members_frame {s s' : Gossip} {A D : List Addr}
    (h : s.update_members A D = some s') :
    s'.myself = s.myself ∧ s'.acks = s.acks ∧
    (MyselfNotAlive s → MyselfNotAlive s') := by
  unfold Gossip.update_members at h
  rcases hd : s.remove_members D with _ | s1
  · rw [hd] at h
    simp at h
  · rw [hd] at h
    have h2 : some (A.foldl Gossip.update_alive_one s1) = some s' := h
    rw [Option.some_inj] at h2
    subst h2
    obtain ⟨f1, f2, f3⟩ := remove_members_frame hd
    obtain ⟨g1, _, g3, _, _, _, _⟩ := foldl_update_alive_frame A s1
    exact ⟨g3.trans f1, g1.trans f2, fun hna => foldl_update_alive_na (f3 hna)⟩

theorem kill_one_frame {s s' : Gossip} {m : Addr} (h : s.kill_one m = some s') :
    s'.myself = s.myself ∧ s'.acks = s.acks ∧
    (MyselfNotAlive s → MyselfNotAlive s') := by
  unfold Gossip.kill_one at h
  rcases hrm : s.remove_member m with _ | s0
  · rw [hrm] at h
    simp at h
  · rw [hrm] at h
    have h2 : some { s0 with dead_members := s0.dead_members.push m } = some s' := h
    rw [Option.some_inj] at h2
    subst h2
    obtain ⟨f1, f2, _, f4⟩ := remove_member_frame hrm
    exact ⟨f1, f2, fun hna => f4 hna⟩

theorem kill_members_frame {ms : List Addr} :
    ∀ {s s' : Gossip}, s.kill_members ms = some s' →
    s'.myself = s.myself ∧ s'.acks = s.acks ∧
    (MyselfNotAlive s → MyselfNotAlive s') := by
  induction ms with
  | nil =>
      intro s s' h
      have h2 : some s = some s' := h
      rw [Option.some_inj] at h2
      subst h2
      exact ⟨rfl, rfl, id⟩
  | cons m rest ih =>
      intro s s' h
      rw [show s.kill_members (m :: rest) =
          (s.kill_one m).bind (fun s1 => s1.kill_members rest) from by
        unfold Gossip.kill_members
        rw [List.foldlM_cons]
        rfl] at h
      rcases hk : s.kill_one m with _ | s1
      · rw [hk] at h
        simp at h
      · rw [hk] at h
        have h1 : s1.kill_members rest = some s' := h
        obtain ⟨f1, f2, f3⟩ := kill_one_frame hk
        obtain ⟨i1, i2, i3⟩ := ih h1
        exact ⟨i1.trans f1, i2.trans f2, fun hna => i3 (f3 hna)⟩

theorem handle_timeout_ack_frame {s s' : Gossip} {a : Ack}
    (h : s.handle_timeout_ack a = some s') :
    s'.myself = s.myself ∧ s'.acks = s.acks ∧
    (MyselfNotAlive s → MyselfNotAlive s') := by
  unfold Gossip.handle_timeout_ack at h
  cases hreq : a.request with
  | Ping hd =>
      rw [hreq] at h
      rw [Option.some_inj] at h
      subst h
      exact ⟨rfl, rfl, id⟩
  | PingIndirect hd =>
      rw [hreq] at h
      exact kill_members_frame h
  | PingProxy hd r =>
      rw [hreq] at h
      exact kill_members_frame h
  | Ack hd =>
      rw [hreq] at h
      simp at h
  | AckIndirect hd mm =>
      rw [hreq] at h
      simp at h

theorem processTimeouts_ok : ∀ (l : List Ack) (t : List Bool) {s0 s' : Gossip},
    processTimeouts s0 l t = some s' →
    s'.myself = s0.myself ∧ (MyselfNotAlive s0 → MyselfNotAlive s') ∧
    (∀ a ∈ s'.acks, a ∈ s0.acks ∨ a ∈ l) := by
  intro l
  induction l with
  | nil =>
      intro t s0 s' h
      have h2 : some s0 = some s' := h
      rw [Option.some_inj] at h2
      subst h2
      exact ⟨rfl, id, fun a ha => Or.inl ha⟩
  | cons a rest ih =>
      intro t s0 s' h
      rw [show processTimeouts s0 (a :: rest) t =
          (if t.headD false then
            (s0.handle_timeout_ack a).bind (fun s1 => processTimeouts s1 rest t.tail)
          else processTimeouts { s0 with acks := s0.acks ++ [a] } rest t.tail)
          from rfl] at h
      split_ifs at h with ht
      · rcases hta : s0.handle_timeout_ack a with _ | s1
        · rw [hta] at h
          simp at h
        · rw [hta] at h
          have h1 : processTimeouts s1 rest t.tail = some s' := h
          obtain ⟨g1, g2, g3⟩ := handle_timeout_ack_frame hta
          obtain ⟨i1, i2, i3⟩ := ih t.tail h1
          refine ⟨i1.trans g1, fun hna => i2 (g3 hna), ?_⟩
          intro x hx
          rcases i3 x hx with hx' | hx'
          · rw [g2] at hx'
            exact Or.inl hx'
          · exact Or.inr (List.mem_cons_of_mem a hx')
      · have h1 : processTimeouts { s0 with acks := s0.acks ++ [a] } rest t.tail =
            some s' := h
        obtain ⟨i1, i2, i3⟩ := ih t.tail h1
        refine ⟨i1, fun hna => i2 hna, ?_⟩
        intro x hx
        rcases i3 x hx with hx' | hx'
        · rcases List.mem_append.mp hx' with h'' | h''
          · exact Or.inl h''
          · rw [List.mem_singleton] at h''
            subst h''
            exact Or.inr (List.mem_cons_self _ _)
        · exact Or.inr (List.mem_cons_of_mem a hx')

theorem get_next_member_frame {s : Gossip} {r : Option Addr × Gossip}
    (h : s.get_next_member = some r) :
    r.2.members = s.members ∧ r.2.members_presence = s.members_presence ∧
    r.2.myself = s.myself ∧ r.2.acks = s.acks ∧ r.2.requests = s.requests ∧
    r.2.epoch = s.epoch ∧ r.2.sequence_number = s.sequence_number ∧
    r.2.dead_members = s.dead_members ∧ r.2.config = s.config := by
  unfold Gossip.get_next_member at h
  split_ifs at h with he
  · rw [Option.some_inj] at h
    subst h
    exact ⟨rfl, rfl, rfl, rfl, rfl, rfl, rfl, rfl, rfl⟩
  · rcases hg : s.members.get? s.next_member_index with _ | target
    · rw [hg] at h
      simp at h
    · rw [hg] at h
      rw [Option.some_inj] at h
      subst h
      exact ⟨rfl, rfl, rfl, rfl, rfl, rfl, rfl, rfl, rfl⟩

theorem advance_epoch_frame {s s' : Gossip} (h : s.advance_epoch = some s') :
    s'.myself = s.myself ∧ s'.members = s.members ∧
    s'.members_presence = s.members_presence ∧ s'.acks = s.acks := by
  unfold Gossip.advance_epoch at h
  rcases hg : s.get_next_member with _ | r
  · rw [hg] at h
    simp at h
  · rw [hg] at h
    obtain ⟨m, s1⟩ := r
    obtain ⟨f1, f2, f3, f4, _, _, _, _, _⟩ := get_next_member_frame hg
    cases m with
    | none =>
        have h2 : some { s1 with epoch := (s1.epoch + 1) % u64Mod } = some s' := h
        rw [Option.some_inj] at h2
        subst h2
        exact ⟨f3, f1, f2, f4⟩
    | some member =>
        have h2 : some { s1 with
            requests := Request.Ping ⟨member, s1.epoch, s1.sequence_number⟩ :: s1.requests
            sequence_number := (s1.sequence_number + 1) % u64Mod
            epoch := (s1.epoch + 1) % u64Mod } = some s' := h
        rw [Option.some_inj] at h2
        subst h2
        exact ⟨f3, f1, f2, f4⟩

theorem ackWalk_subset {letter : IncomingLetter} :
    ∀ {pending ra : List Ack} {rq : List Request},
    ackWalk letter pending = some (ra, rq) → ∀ a ∈ ra, a ∈ pending := by
  intro pending
  induction pending with
  | nil =>
      intro ra rq h a ha
      have h2 : some (([] : List Ack), ([] : List Request)) = some (ra, rq) := h
      rw [Option.some_inj, Prod.mk.injEq] at h2
      rw [← h2.1] at ha
      exact absurd ha (List.not_mem_nil a)
  | cons b rest ih =>
      obtain ⟨req⟩ := b
      intro ra rq hwalk a ha
      cases req with
      | Ack hd => simp [ackWalk] at hwalk
      | AckIndirect hd mm => simp [ackWalk] at hwalk
      | Ping hd =>
          by_cases hcond : letter.sender = hd.target ∧
              letter.message.sequence_number = hd.sequence_number
          · have hwalk2 : ackWalk letter rest = some (ra, rq) := by
              rw [show ackWalk letter (⟨Request.Ping hd⟩ :: rest) =
                  ackWalk letter rest from by
                simp [ackWalk, hcond]] at hwalk
              exact hwalk
            exact List.mem_cons_of_mem _ (ih hwalk2 a ha)
          · rw [show ackWalk letter (⟨Request.Ping hd⟩ :: rest) =
                (ackWalk letter rest).bind
                  (fun p => some (⟨Request.Ping hd⟩ :: p.1, p.2)) from by
              simp [ackWalk, hcond]] at hwalk
            rcases hrec : ackWalk letter rest with _ | p
            · rw [hrec] at hwalk
              simp at hwalk
            · rw [hrec] at hwalk
              obtain ⟨ra', rq'⟩ := p
              have h2 : some ((⟨Request.Ping hd⟩ : Ack) :: ra', rq') = some (ra, rq) :=
                hwalk
              rw [Option.some_inj, Prod.mk.injEq] at h2
              rw [← h2.1] at ha
              rcases List.mem_cons.mp ha with rfl | ha'
              · exact List.mem_cons_self _ _
              · exact List.mem_cons_of_mem _ (ih hrec a ha')
      | PingIndirect hd =>
          rcases halive : letter.message.alive with _ | ⟨t, tl⟩
          · simp [ackWalk, halive] at hwalk
          · by_cases hcond : t = hd.target ∧
                letter.message.sequence_number = hd.sequence_number
            · have hwalk2 : ackWalk letter rest = some (ra, rq) := by
                rw [show ackWalk letter (⟨Request.PingIndirect hd⟩ :: rest) =
                    ackWalk letter rest from by
                  simp [ackWalk, halive, hcond]] at hwalk
                exact hwalk
              exact List.mem_cons_of_mem _ (ih hwalk2 a ha)
            · rw [show ackWalk letter (⟨Request.PingIndirect hd⟩ :: rest) =
                  (ackWalk letter rest).bind
                    (fun p => some (⟨Request.PingIndirect hd⟩ :: p.1, p.2)) from by
                simp [ackWalk, halive, hcond]] at hwalk
              rcases hrec : ackWalk letter rest with _ | p
              · rw [hrec] at hwalk
                simp at hwalk
              · rw [hrec] at hwalk
                obtain ⟨ra', rq'⟩ := p
                have h2 : some ((⟨Request.PingIndirect hd⟩ : Ack) :: ra', rq') =
                    some (ra, rq) := hwalk
                rw [Option.some_inj, Prod.mk.injEq] at h2
                rw [← h2.1] at ha
                rcases List.mem_cons.mp ha with rfl | ha'
                · exact List.mem_cons_self _ _
                · exact List.mem_cons_of_mem _ (ih hrec a ha')
      | PingProxy hd reply_to =>
          by_cases hcond : letter.sender = hd.target ∧
              letter.message.sequence_number = hd.sequence_number
          · rw [show ackWalk letter (⟨Request.PingProxy hd reply_to⟩ :: rest) =
                (ackWalk letter rest).bind
                  (fun p => some (p.1, Request.AckIndirect
                    ⟨reply_to, letter.message.epoch, letter.message.sequence_number⟩
                    letter.sender :: p.2)) from by
              simp [ackWalk, hcond]] at hwalk
            rcases hrec : ackWalk letter rest with _ | p
            · rw [hrec] at hwalk
              simp at hwalk
            · rw [hrec] at hwalk
              obtain ⟨ra', rq'⟩ := p
              have h2 : some (ra', Request.AckIndirect
                  ⟨reply_to, letter.message.epoch, letter.message.sequence_number⟩
                  letter.sender :: rq') = some (ra, rq) := hwalk
              rw [Option.some_inj, Prod.mk.injEq] at h2
              rw [← h2.1] at ha
              exact List.mem_cons_of_mem _ (ih hrec a ha)
          · rw [show ackWalk letter (⟨Request.PingProxy hd reply_to⟩ :: rest) =
                (ackWalk letter rest).bind
                  (fun p => some (⟨Request.PingProxy hd reply_to⟩ :: p.1, p.2)) from by
              simp [ackWalk, hcond]] at hwalk
            rcases hrec : ackWalk letter rest with _ | p
            · rw [hrec] at hwalk
              simp at hwalk
            · rw [hrec] at hwalk
              obtain ⟨ra', rq'⟩ := p
              have h2 : some ((⟨Request.PingProxy hd reply_to⟩ : Ack) :: ra', rq') =
                  some (ra, rq) := hwalk
              rw [Option.some_inj, Prod.mk.injEq] at h2
              rw [← h2.1] at ha
              rcases List.mem_cons.mp ha with rfl | ha'
              · exact List.mem_cons_self _ _
              · exact List.mem_cons_of_mem _ (ih hrec a ha')

theorem handle_ack_frame {s s' : Gossip} {letter : IncomingLetter}
    (h : s.handle_ack letter = some s') :
    s'.myself = s.myself ∧ s'.members = s.members ∧
    s'.members_presence = s.members_presence ∧ ∀ a ∈ s'.acks, a ∈ s.acks := by
  unfold Gossip.handle_ack at h
  rcases hw : ackWalk letter s.acks with _ | p
  · rw [hw] at h
    simp at h
  · rw [hw] at h
    obtain ⟨ra, rq⟩ := p
    have h2 : some { s with acks := ra, requests := s.requests ++ rq } = some s' := h
    rw [Option.some_inj] at h2
    subst h2
    exact ⟨rfl, rfl, rfl, ackWalk_subset hw⟩

theorem update_members_from_letter_frame {s s' : Gossip} {letter : IncomingLetter}
    (h : s.update_members_from_letter letter = some s') :
    s'.myself = s.myself ∧ s'.acks = s.acks ∧
    (MyselfNotAlive s → MyselfNotAlive s') := by
  unfold Gossip.update_members_from_letter at h
  cases htype : letter.message.mtype with
  | Ping =>
      rw [htype] at h
      exact update_members_frame h
  | PingAck =>
      rw [htype] at h
      exact update_members_frame h
  | PingIndirect =>
      rw [htype] at h
      exact update_members_frame h

theorem handle_letter_ok {s s' : Gossip} {letter : IncomingLetter}
    (h : s.handle_letter letter = some s') :
    s'.myself = s.myself ∧ (MyselfNotAlive s → MyselfNotAlive s') ∧
    (∀ a ∈ s'.acks, a ∈ s.acks) := by
  unfold Gossip.handle_letter at h
  rcases hu : s.update_members_from_letter letter with _ | s1
  · rw [hu] at h
    simp at h
  · rw [hu] at h
    obtain ⟨f1, f2, f3⟩ := update_members_from_letter_frame hu
    cases htype : letter.message.mtype with
    | Ping =>
        rw [htype] at h
        have h2 : some { s1 with requests := s1.requests ++
            [Request.Ack ⟨letter.sender, letter.message.epoch,
              letter.message.sequence_number⟩] } = some s' := h
        rw [Option.some_inj] at h2
        subst h2
        refine ⟨f1, fun hna => f3 hna, ?_⟩
        intro a ha
        rw [f2] at ha
        exact ha
    | PingAck =>
        rw [htype] at h
        obtain ⟨g1, g2, g3, g4⟩ := handle_ack_frame h
        refine ⟨g1.trans f1, ?_, ?_⟩
        · intro hna
          have hna1 := f3 hna
          constructor
          · rw [g2, g1]
            exact hna1.1
          · rw [g3, g1]
            exact hna1.2
        · intro a ha
          have := g4 a ha
          rw [f2] at this
          exact this
    | PingIndirect =>
        rw [htype] at h
        unfold Gossip.handle_indirect_ping at h
        rcases halive : letter.message.alive with _ | ⟨t, tl⟩
        · rw [halive] at h
          simp at h
        · rw [halive] at h
          have h2 : some { s1 with requests := s1.requests ++
              [Request.PingProxy ⟨t, letter.message.epoch,
                letter.message.sequence_number⟩ letter.sender] } = some s' := h
          rw [Option.some_inj] at h2
          subst h2
          refine ⟨f1, fun hna => f3 hna, ?_⟩
          intro a ha
          rw [f2] at ha
          exact ha

theorem handle_writable_ok (s : Gossip) :
    s.handle_writable.1.myself = s.myself ∧
    s.handle_writable.1.members = s.members ∧
    s.handle_writable.1.members_presence = s.members_presence ∧
    ∀ a ∈ s.handle_writable.1.acks, a ∈ s.acks ∨ a.request.isProbe = true := by
  unfold Gossip.handle_writable
  cases hreq : s.requests with
  | nil => exact ⟨rfl, rfl, rfl, fun a ha => Or.inl ha⟩
  | cons req rest =>
      cases req with
      | Ping h =>
          refine ⟨rfl, rfl, rfl, ?_⟩
          intro a ha
          rcases List.mem_append.mp ha with ha | ha
          · exact Or.inl ha
          · rw [List.mem_singleton] at ha
            subst ha
            exact Or.inr rfl
      | PingIndirect h =>
          refine ⟨rfl, rfl, rfl, ?_⟩
          intro a ha
          rcases List.mem_append.mp ha with ha | ha
          · exact Or.inl ha
          · rw [List.mem_singleton] at ha
            subst ha
            exact Or.inr rfl
      | PingProxy h reply_to =>
          refine ⟨rfl, rfl, rfl, ?_⟩
          intro a ha
          rcases List.mem_append.mp ha with ha | ha
          · exact Or.inl ha
          · rw [List.mem_singleton] at ha
            subst ha
            exact Or.inr rfl
      | Ack h => exact ⟨rfl, rfl, rfl, fun a ha => Or.inl ha⟩
      | AckIndirect h m => exact ⟨rfl, rfl, rfl, fun a ha => Or.inl ha⟩

theorem step_ok {s s' : Gossip} {e : Event} (h : s.step e = some s') :
    s'.myself = s.myself ∧ (MyselfNotAlive s → MyselfNotAlive s') ∧
    (∀ a ∈ s'.acks, a ∈ s.acks ∨ a.request.isProbe = true) := by
  cases e with
  | recv letter =>
      obtain ⟨h1, h2, h3⟩ := handle_letter_ok h
      exact ⟨h1, h2, fun a ha => Or.inl (h3 a ha)⟩
  | writableReady =>
      have h2 : some s.handle_writable.1 = some s' := h
      rw [Option.some_inj] at h2
      subst h2
      obtain ⟨h1, hm, hp, hacks⟩ := handle_writable_ok s
      refine ⟨h1, ?_, hacks⟩
      intro hna
      constructor
      · rw [hm, h1]
        exact hna.1
      · rw [hp, h1]
        exact hna.2
  | timeouts t =>
      obtain ⟨h1, h2, h3⟩ := processTimeouts_ok s.acks t h
      refine ⟨h1, fun hna => h2 hna, ?_⟩
      intro a ha
      rcases h3 a ha with ha' | ha'
      · exact absurd ha' (List.not_mem_nil a)
      · exact Or.inl ha'
  | epochTick =>
      obtain ⟨f1, f2, f3, f4⟩ := advance_epoch_frame h
      refine ⟨f1, ?_, ?_⟩
      · intro hna
        constructor
        · rw [f2, f1]
          exact hna.1
        · rw [f3, f1]
          exact hna.2
      · intro a ha
        rw [f4] at ha
        exact Or.inl ha

theorem runEvents_inv {events : List Event} :
    ∀ {s s' : Gossip}, s.runEvents events = some s' →
    (MyselfNotAlive s → MyselfNotAlive s') ∧
    (ProbeAcksOnly s → ProbeAcksOnly s') := by
  induction events with
  | nil =>
      intro s s' h
      have h2 : some s = some s' := h
      rw [Option.some_inj] at h2
      subst h2
      exact ⟨id, id⟩
  | cons e rest ih =>
      intro s s' h
      rw [show s.runEvents (e :: rest) =
          (s.step e).bind (fun s1 => s1.runEvents rest) from by
        unfold Gossip.runEvents
        rw [List.foldlM_cons]
        rfl] at h
      rcases hs : s.step e with _ | s1
      · rw [hs] at h
        simp at h
      · rw [hs] at h
        have h1 : s1.runEvents rest = some s' := h
        obtain ⟨g1, g2, g3⟩ := step_ok hs
        obtain ⟨i1, i2⟩ := ih h1
        refine ⟨fun hna => i1 (g2 hna), ?_⟩
        intro hpo
        refine i2 ?_
        intro a ha
        rcases g3 a ha with ha' | ha'
        · exact hpo a ha'
        · exact ha'

theorem postJoin_inv {a b : Addr} {c : ProtocolConfig} {g : Gossip}
    (h : Gossip.postJoin a b c = some g) :
    MyselfNotAlive g ∧ g.acks = [] := by
  unfold Gossip.postJoin at h
  rcases hu : (Gossip.new a c).update_members [b] [] with _ | s1
  · rw [hu] at h
    simp at h
  · rw [hu] at h
    have h3 : (s1.get_next_member).bind (fun r =>
        match r.1 with
        | none => none
        | some target =>
            some { (r.2.get_next_sequence_number).2 with
              requests := Request.Ping ⟨target, (r.2.get_next_sequence_number).2.epoch,
                (r.2.get_next_sequence_number).1⟩ ::
                (r.2.get_next_sequence_number).2.requests }) = some g := h
    rcases hg : s1.get_next_member with _ | r
    · rw [hg] at h3
      simp at h3
    · rw [hg] at h3
      obtain ⟨m, s2⟩ := r
      obtain ⟨f1, f2, f3, f4, _, _, _, _, _⟩ := get_next_member_frame hg
      obtain ⟨u1, u2, u3⟩ := update_members_frame hu
      have hna1 : MyselfNotAlive s1 := by
        refine u3 ?_
        exact ⟨List.not_mem_nil a, List.not_mem_nil a⟩
      have hacks1 : s1.acks = [] := u2
      cases m with
      | none => simp at h3
      | some target =>
          have h2 : some { (s2.get_next_sequence_number).2 with
              requests := Request.Ping ⟨target, (s2.get_next_sequence_number).2.epoch,
                (s2.get_next_sequence_number).1⟩ ::
                (s2.get_next_sequence_number).2.requests } = some g := h3
          rw [Option.some_inj] at h2
          subst h2
          constructor
          · constructor
            · show s2.myself ∉ s2.members
              rw [f3, f1]
              exact hna1.1
            · show s2.myself ∉ s2.members_presence
              rw [f3, f2]
              exact hna1.2
          · show s2.acks = []
            rw [f4]
            exact hacks1

/-- The post-join state of node `0` seeded with peer `1` (used by witnesses). -/
def g01 : Gossip :=
  (Gossip.postJoin 0 1 ProtocolConfig.default).getD (Gossip.new 0 ProtocolConfig.default)

/-- C1 (amended): in every reachable state, the node's own address never
appears in the alive list or the presence set.  (The dead-ring half of the
original claim is false: see the counterexample, where an inbound
`PingIndirect` naming `myself` as relay target leads to a timed-out
self-addressed `PingProxy` that pushes `myself` onto the dead ring.) -/
theorem C1_myself_never_alive : ∀ s : Gossip, Reachable s →
    s.myself ∉ s.members ∧ s.myself ∉ s.members_presence := by
  rintro s ⟨a, b, c, g, events, hpj, hrun⟩
  obtain ⟨hna, _⟩ := postJoin_inv hpj
  exact (runEvents_inv hrun).1 hna

theorem C1_myself_never_alive_witness :
    g01.myself ∉ g01.members ∧ g01.myself ∉ g01.members_presence :=
  C1_myself_never_alive g01
    ⟨0, 1, ProtocolConfig.default, g01, [], by decide, rfl⟩

/-- C9: in every reachable state, every entry of the pending-acks collection
wraps a `Ping`, `PingIndirect` or `PingProxy` request — the `unreachable!()`
branches for `Ack`/`AckIndirect` in the timeout handler and the ack-matching
walk can never fire. -/
theorem C9_pending_acks_probe_only : ∀ s : Gossip, Reachable s →
    ∀ a ∈ s.acks, a.request.isProbe = true := by
  rintro s ⟨a, b, c, g, events, hpj, hrun⟩
  obtain ⟨_, hacks⟩ := postJoin_inv hpj
  refine (runEvents_inv hrun).2 ?_
  intro x hx
  rw [hacks] at hx
  exact absurd hx (List.not_mem_nil x)

theorem C9_pending_acks_probe_only_witness :
    c4Mid.acks.all (fun a => a.request.isProbe) = true := by
  rw [List.all_eq_true]
  exact C9_pending_acks_probe_only c4Mid
    ⟨0, 1, ProtocolConfig.default, g01, c4Events, by decide, by decide⟩
